import Mathlib

/-!
# Verification of the streaming event re-publication pipeline

This file embeds, in Lean 4, the core of the `LangGraphAgentCore` repository's
streaming pipeline:

* the SSE stream parser and producer of
  `src/bff/app/services/agent_client.py`
  (`StreamingCallbackHandler`, `AgentClient._process_bedrock_stream`,
  `AgentClient._process_event`, `AgentClient.invoke_stream`),
* the whole-response SSE parser of
  `src/bff/cdk/cdk.out/asset.567.../app/services/agent_client.py`
  (`parse_sse_events`, `AgentClient.invoke_stream`), and
* the event wire format of `src/bedrock/streaming_utils.py`
  (`StreamEvent.to_sse`).

Python strings are modelled as lists of Unicode code points (`PyStr`),
JSON-compatible values as the inductive `JVal`, and the Python `json`
library's `dumps`/`loads` pair as the executable functions `jdump` and
`jsonLoads` (restricted to integer numbers; floating point is outside the
model).  Every definition mirrors the corresponding Python source; theorems
at the end settle the specification claims.
-/

/-- A Python string: a finite sequence of Unicode code points. -/
abbrev PyStr := List Nat

/-- Convert a Lean string literal into the code-point model. -/
def pyOfString (s : String) : PyStr := s.data.map Char.toNat

/-- Characters Python's `str.strip()` removes (the `str.isspace` set). -/
def pyIsSpace (c : Nat) : Bool :=
  c = 9 ∨ c = 10 ∨ c = 11 ∨ c = 12 ∨ c = 13 ∨
  (28 ≤ c ∧ c ≤ 32) ∨ c = 133 ∨ c = 160 ∨ c = 5760 ∨
  (8192 ≤ c ∧ c ≤ 8202) ∨ c = 8232 ∨ c = 8233 ∨ c = 8239 ∨ c = 8287 ∨
  c = 12288

/-- Python `s.strip()`: drop leading and trailing whitespace. -/
def pyStrip (s : PyStr) : PyStr :=
  ((s.dropWhile pyIsSpace).reverse.dropWhile pyIsSpace).reverse

/-- Python `s.split('\n')` (note `''.split('\n') == ['']`). -/
def splitNl : PyStr → List PyStr
  | [] => [[]]
  | c :: rest =>
    if c = 10 then [] :: splitNl rest
    else
      match splitNl rest with
      | [] => [[c]]
      | h :: t => (c :: h) :: t

/-- JSON-compatible values, with numbers restricted to integers
(floating point is outside the shallow embedding). Objects keep their
member order; `json.loads` builds Python dicts by successive assignment,
so lookup takes the last occurrence of a key. -/
inductive JVal where
  | null : JVal
  | bool : Bool → JVal
  | int : Int → JVal
  | str : PyStr → JVal
  | arr : List JVal → JVal
  | obj : List (PyStr × JVal) → JVal
deriving Repr

mutual
/-- Structural equality test for `JVal` (decidable equality is derived
from it below; the deriving handler does not support nested inductives). -/
def jvalBEq : JVal → JVal → Bool
  | .null, .null => true
  | .bool a, .bool b => a == b
  | .int a, .int b => a == b
  | .str a, .str b => a == b
  | .arr a, .arr b => jvalListBEq a b
  | .obj a, .obj b => jvalObjBEq a b
  | _, _ => false

/-- Pointwise `jvalBEq` on lists. -/
def jvalListBEq : List JVal → List JVal → Bool
  | [], [] => true
  | x :: xs, y :: ys => jvalBEq x y && jvalListBEq xs ys
  | _, _ => false

/-- Pointwise `jvalBEq` on object member lists. -/
def jvalObjBEq : List (PyStr × JVal) → List (PyStr × JVal) → Bool
  | [], [] => true
  | (k₁, v₁) :: xs, (k₂, v₂) :: ys => k₁ == k₂ && jvalBEq v₁ v₂ && jvalObjBEq xs ys
  | _, _ => false
end

mutual
theorem jvalBEq_iff : ∀ a b : JVal, jvalBEq a b = true ↔ a = b
  | .null, .null => by simp [jvalBEq]
  | .bool a, .bool b => by simp [jvalBEq]
  | .int a, .int b => by simp [jvalBEq]
  | .str a, .str b => by simp [jvalBEq]
  | .arr a, .arr b => by
    simp only [jvalBEq, jvalListBEq_iff a b]
    constructor
    · intro h; rw [h]
    · intro h; injection h
  | .obj a, .obj b => by
    simp only [jvalBEq, jvalObjBEq_iff a b]
    constructor
    · intro h; rw [h]
    · intro h; injection h
  | .null, .bool _ | .null, .int _ | .null, .str _ | .null, .arr _ | .null, .obj _
  | .bool _, .null | .bool _, .int _ | .bool _, .str _ | .bool _, .arr _ | .bool _, .obj _
  | .int _, .null | .int _, .bool _ | .int _, .str _ | .int _, .arr _ | .int _, .obj _
  | .str _, .null | .str _, .bool _ | .str _, .int _ | .str _, .arr _ | .str _, .obj _
  | .arr _, .null | .arr _, .bool _ | .arr _, .int _ | .arr _, .str _ | .arr _, .obj _
  | .obj _, .null | .obj _, .bool _ | .obj _, .int _ | .obj _, .str _ | .obj _, .arr _ => by
    simp [jvalBEq]

theorem jvalListBEq_iff : ∀ a b : List JVal, jvalListBEq a b = true ↔ a = b
  | [], [] => by simp [jvalListBEq]
  | x :: xs, y :: ys => by
    simp [jvalListBEq, jvalBEq_iff x y, jvalListBEq_iff xs ys]
  | [], _ :: _ => by simp [jvalListBEq]
  | _ :: _, [] => by simp [jvalListBEq]

theorem jvalObjBEq_iff : ∀ a b : List (PyStr × JVal), jvalObjBEq a b = true ↔ a = b
  | [], [] => by simp [jvalObjBEq]
  | (k₁, v₁) :: xs, (k₂, v₂) :: ys => by
    simp [jvalObjBEq, jvalBEq_iff v₁ v₂, jvalObjBEq_iff xs ys, and_assoc]
  | [], _ :: _ => by simp [jvalObjBEq]
  | _ :: _, [] => by simp [jvalObjBEq]
end

instance : DecidableEq JVal := fun a b => decidable_of_iff _ (jvalBEq_iff a b)

/-- Python truthiness of a JSON-decoded value (`if event_data:` etc.):
`None`, `False`, `0`, `""`, `[]`, `{}` are falsy. -/
def jtruthy : JVal → Bool
  | .null => false
  | .bool b => b
  | .int n => n ≠ 0
  | .str s => !s.isEmpty
  | .arr xs => !xs.isEmpty
  | .obj kvs => !kvs.isEmpty

/-- Python `==` on JSON-decoded values. `True == 1` and `False == 0`
hold in Python, so booleans compare equal to the matching integers. -/
def pyEq : JVal → JVal → Bool
  | .null, .null => true
  | .bool a, .bool b => a = b
  | .bool a, .int n => (if a then (1 : Int) else 0) = n
  | .int n, .bool b => n = (if b then (1 : Int) else 0)
  | .int a, .int b => a = b
  | .str a, .str b => a = b
  | .arr a, .arr b => pyEqList a b
  | .obj a, .obj b => pyEqObj a b
  | _, _ => false
where
  pyEqList : List JVal → List JVal → Bool
    | [], [] => true
    | x :: xs, y :: ys => pyEq x y && pyEqList xs ys
    | _, _ => false
  pyEqObj : List (PyStr × JVal) → List (PyStr × JVal) → Bool
    | [], [] => true
    | (k₁, v₁) :: xs, (k₂, v₂) :: ys => k₁ = k₂ && pyEq v₁ v₂ && pyEqObj xs ys
    | _, _ => false

/-- Python `dict.get(key, default)` on a JSON object built by `json.loads`
(duplicate keys overwrite, so the last occurrence wins). -/
def jget (kvs : List (PyStr × JVal)) (k : PyStr) (dflt : JVal) : JVal :=
  match kvs.reverse.find? (fun kv => kv.1 = k) with
  | some kv => kv.2
  | none => dflt

/-! ## `json.dumps` (default options: `ensure_ascii=True`,
separators `", "` and `": "`) -/

/-- Lowercase hex digit. -/
def hexDigit (n : Nat) : Nat := if n < 10 then 48 + n else 87 + n

/-- Four lowercase hex digits of `n < 0x10000` (as in `\uXXXX`). -/
def hex4 (n : Nat) : PyStr :=
  [hexDigit (n / 4096 % 16), hexDigit (n / 256 % 16),
   hexDigit (n / 16 % 16), hexDigit (n % 16)]

/-- `json.dumps` escaping of one character (`ensure_ascii=True`):
short escapes for the common controls, literal ASCII printables, and
`\uXXXX` (with surrogate pairs above the BMP) for everything else. -/
def escapeChar (c : Nat) : PyStr :=
  if c = 34 then [92, 34]
  else if c = 92 then [92, 92]
  else if c = 8 then [92, 98]
  else if c = 9 then [92, 116]
  else if c = 10 then [92, 110]
  else if c = 12 then [92, 102]
  else if c = 13 then [92, 114]
  else if 32 ≤ c ∧ c ≤ 126 then [c]
  else if c < 65536 then 92 :: 117 :: hex4 c
  else
    92 :: 117 :: hex4 (55296 + (c - 65536) / 1024) ++
      (92 :: 117 :: hex4 (56320 + (c - 65536) % 1024))

/-- The JSON encoding of a string body (without the quotes). -/
def escStr (s : PyStr) : PyStr := s.flatMap escapeChar

/-- Decimal digits of a natural number. -/
def natToDec (n : Nat) : PyStr :=
  if h : n < 10 then [48 + n]
  else natToDec (n / 10) ++ [48 + n % 10]
decreasing_by exact Nat.div_lt_self (by omega) (by omega)

/-- Decimal rendering of an integer. -/
def intToDec (i : Int) : PyStr :=
  if i < 0 then 45 :: natToDec i.natAbs else natToDec i.natAbs

mutual
/-- `json.dumps` with its default separators. -/
def jdump : JVal → PyStr
  | .null => pyOfString "null"
  | .bool true => pyOfString "true"
  | .bool false => pyOfString "false"
  | .int n => intToDec n
  | .str s => 34 :: escStr s ++ [34]
  | .arr xs => 91 :: jdumpItems xs ++ [93]
  | .obj kvs => 123 :: jdumpMembers kvs ++ [125]

/-- Array items joined by `", "`. -/
def jdumpItems : List JVal → PyStr
  | [] => []
  | [x] => jdump x
  | x :: y :: rest => jdump x ++ 44 :: 32 :: jdumpItems (y :: rest)

/-- Object members joined by `", "`, each `"key": value`. -/
def jdumpMembers : List (PyStr × JVal) → PyStr
  | [] => []
  | [(k, v)] => 34 :: escStr k ++ [34] ++ 58 :: 32 :: jdump v
  | (k, v) :: m :: rest =>
    34 :: escStr k ++ [34] ++ 58 :: 32 :: jdump v ++ 44 :: 32 :: jdumpMembers (m :: rest)
end

/-! ## `json.loads` (strict mode, integer numbers) -/

/-- JSON insignificant whitespace. -/
def jsonWs (c : Nat) : Bool := c = 32 ∨ c = 9 ∨ c = 10 ∨ c = 13

/-- Skip JSON whitespace. -/
def skipWs (s : PyStr) : PyStr := s.dropWhile jsonWs

/-- Value of one hex digit. -/
def hexVal (c : Nat) : Option Nat :=
  if 48 ≤ c ∧ c ≤ 57 then some (c - 48)
  else if 97 ≤ c ∧ c ≤ 102 then some (c - 87)
  else if 65 ≤ c ∧ c ≤ 70 then some (c - 55)
  else none

/-- Decode a short escape character (`\" \\ \/ \b \f \n \r \t`). -/
def shortEscape (e : Nat) : Option Nat :=
  if e = 34 then some 34
  else if e = 92 then some 92
  else if e = 47 then some 47
  else if e = 98 then some 8
  else if e = 102 then some 12
  else if e = 110 then some 10
  else if e = 114 then some 13
  else if e = 116 then some 9
  else none

/-- Parse exactly four hexadecimal digits (the `XXXX` of a `\uXXXX`
escape). -/
def hex4parse : PyStr → Option (Nat × PyStr)
  | a :: b :: c :: d :: rest =>
    match hexVal a, hexVal b, hexVal c, hexVal d with
    | some va, some vb, some vc, some vd =>
      some (va * 4096 + vb * 256 + vc * 16 + vd, rest)
    | _, _, _, _ => none
  | _ => none

/-- Parse a JSON string body after the opening quote (strict mode:
literal control characters are rejected).  `\uXXXX` escapes are decoded,
with surrogate pairs recombined as Python's decoder does.  The fuel only
bounds the recursion; every step consumes at least one character. -/
def parseStr : Nat → PyStr → Option (PyStr × PyStr)
  | 0, _ => none
  | _ + 1, [] => none
  | fuel + 1, c :: s₀ =>
    if c = 34 then some ([], s₀)
    else if c = 92 then
      match s₀ with
      | [] => none
      | e :: s₁ =>
        if e = 117 then
          match hex4parse s₁ with
          | none => none
          | some (n, s₂) =>
            if 55296 ≤ n ∧ n ≤ 56319 then
              match s₂ with
              | c₂ :: c₃ :: s₃ =>
                if c₂ = 92 ∧ c₃ = 117 then
                  match hex4parse s₃ with
                  | some (m, s₄) =>
                    if 56320 ≤ m ∧ m ≤ 57343 then
                      (parseStr fuel s₄).map
                        (fun r => ((65536 + (n - 55296) * 1024 + (m - 56320)) :: r.1, r.2))
                    else (parseStr fuel s₂).map (fun r => (n :: r.1, r.2))
                  | none => (parseStr fuel s₂).map (fun r => (n :: r.1, r.2))
                else (parseStr fuel s₂).map (fun r => (n :: r.1, r.2))
              | _ => (parseStr fuel s₂).map (fun r => (n :: r.1, r.2))
            else (parseStr fuel s₂).map (fun r => (n :: r.1, r.2))
        else
          match shortEscape e with
          | some x => (parseStr fuel s₁).map (fun r => (x :: r.1, r.2))
          | none => none
    else if c < 32 then none
    else (parseStr fuel s₀).map (fun r => (c :: r.1, r.2))

/-- `true` iff `c` is an ASCII digit. -/
def isDigit (c : Nat) : Bool := 48 ≤ c ∧ c ≤ 57

/-- Value of a decimal digit string. -/
def decValue (ds : PyStr) : Nat := ds.foldl (fun a c => a * 10 + (c - 48)) 0

/-- Parse a JSON integer (optional sign handled by the caller); rejects
empty digit runs and leading zeros, as Python's decoder does. -/
def parseNum (s : PyStr) : Option (Nat × PyStr) :=
  let ds := s.takeWhile isDigit
  if ds.isEmpty then none
  else if ds.head? = some 48 ∧ ds.length > 1 then none
  else some (decValue ds, s.dropWhile isDigit)

mutual
/-- Parse one JSON value at the head of `s` (no leading whitespace).
The fuel decreases on every recursive call; `jsonLoads` supplies enough
for any input.  Numbers are integers only: a fractional or exponent part
makes the surrounding document unparseable in this model (floating point
is outside the embedding). -/
def parseVal : Nat → PyStr → Option (JVal × PyStr)
  | 0, _ => none
  | _ + 1, [] => none
  | fuel + 1, c :: s₀ =>
    if c = 34 then (parseStr fuel s₀).map (fun r => (JVal.str r.1, r.2))
    else if c = 123 then
      match skipWs s₀ with
      | d :: r =>
        if d = 125 then some (.obj [], r)
        else (parseMembers fuel (d :: r)).map (fun p => (JVal.obj p.1, p.2))
      | [] => none
    else if c = 91 then
      match skipWs s₀ with
      | d :: r =>
        if d = 93 then some (.arr [], r)
        else (parseItems fuel (d :: r)).map (fun p => (JVal.arr p.1, p.2))
      | [] => none
    else if c = 110 then
      if s₀.take 3 = [117, 108, 108] then some (.null, s₀.drop 3) else none
    else if c = 116 then
      if s₀.take 3 = [114, 117, 101] then some (.bool true, s₀.drop 3) else none
    else if c = 102 then
      if s₀.take 4 = [97, 108, 115, 101] then some (.bool false, s₀.drop 4) else none
    else if c = 45 then
      (parseNum s₀).map (fun p => (JVal.int (-(p.1 : Int)), p.2))
    else if isDigit c then
      (parseNum (c :: s₀)).map (fun p => (JVal.int (p.1 : Int), p.2))
    else none

/-- Parse the non-empty item list of a JSON array, up to and including the
closing bracket. -/
def parseItems : Nat → PyStr → Option (List JVal × PyStr)
  | 0, _ => none
  | fuel + 1, s =>
    match parseVal fuel s with
    | none => none
    | some (v, r₁) =>
      match skipWs r₁ with
      | d :: r₂ =>
        if d = 44 then (parseItems fuel (skipWs r₂)).map (fun p => (v :: p.1, p.2))
        else if d = 93 then some ([v], r₂)
        else none
      | [] => none

/-- Parse the non-empty member list of a JSON object, up to and including
the closing brace. -/
def parseMembers : Nat → PyStr → Option (List (PyStr × JVal) × PyStr)
  | 0, _ => none
  | fuel + 1, s =>
    match s with
    | d₀ :: s₁ =>
      if d₀ = 34 then
        match parseStr fuel s₁ with
        | none => none
        | some (k, s₂) =>
          match skipWs s₂ with
          | d₁ :: s₃ =>
            if d₁ = 58 then
              match parseVal fuel (skipWs s₃) with
              | none => none
              | some (v, s₄) =>
                match skipWs s₄ with
                | d₂ :: s₅ =>
                  if d₂ = 44 then
                    (parseMembers fuel (skipWs s₅)).map (fun p => ((k, v) :: p.1, p.2))
                  else if d₂ = 125 then some ([(k, v)], s₅)
                  else none
                | [] => none
            else none
          | [] => none
      else none
    | [] => none
end

/-- `json.loads`: skip surrounding whitespace, parse one value, require
the rest to be empty; `none` models a raised `JSONDecodeError`.  The fuel
`2 * length + 2` is sufficient because every fuel step consumes at least
one input character. -/
def jsonLoads (s : PyStr) : Option JVal :=
  let t := skipWs s
  match parseVal (2 * t.length + 2) t with
  | some (v, r) => if (skipWs r).isEmpty then some v else none
  | none => none

/-! ## Python `str()` of JSON-decoded values

`_process_bedrock_stream` renders a JSON-decoded non-string value with
`str(parsed)` in its residual-buffer fallback.  `str` on the objects
`json.loads` can produce is `repr`-based: dicts and lists print with
single-quoted strings, `True`/`False`/`None` print in Python spelling.
The string-escape rules below approximate CPython's `repr` (quote choice
and ASCII control escapes); no theorem in this file depends on them. -/

/-- `repr` escaping of one character inside quote character `q`. -/
def reprEsc (q c : Nat) : PyStr :=
  if c = 92 then [92, 92]
  else if c = q then [92, q]
  else if c = 10 then [92, 110]
  else if c = 13 then [92, 114]
  else if c = 9 then [92, 116]
  else if c < 32 ∨ c = 127 then [92, 120, hexDigit (c / 16), hexDigit (c % 16)]
  else [c]

/-- Python `repr` of a string: single quotes, unless the string contains
a single quote and no double quote. -/
def pyReprStr (s : PyStr) : PyStr :=
  let q : Nat := if 39 ∈ s ∧ ¬34 ∈ s then 34 else 39
  q :: s.flatMap (reprEsc q) ++ [q]

mutual
/-- Python `str()` on a value returned by `json.loads`. -/
def pyRepr : JVal → PyStr
  | .null => pyOfString "None"
  | .bool true => pyOfString "True"
  | .bool false => pyOfString "False"
  | .int n => intToDec n
  | .str s => pyReprStr s
  | .arr xs => 91 :: pyReprItems xs ++ [93]
  | .obj kvs => 123 :: pyReprMembers kvs ++ [125]

/-- List elements joined by `", "`. -/
def pyReprItems : List JVal → PyStr
  | [] => []
  | [x] => pyRepr x
  | x :: y :: rest => pyRepr x ++ 44 :: 32 :: pyReprItems (y :: rest)

/-- Dict members joined by `", "`, each `key: value`. -/
def pyReprMembers : List (PyStr × JVal) → PyStr
  | [] => []
  | [(k, v)] => pyReprStr k ++ 58 :: 32 :: pyRepr v
  | (k, v) :: m :: rest => pyReprStr k ++ 58 :: 32 :: pyRepr v ++ 44 :: 32 :: pyReprMembers (m :: rest)
end

/-! ## The event model shared by producer and consumer

`StreamEvent` in `src/bff/app/services/agent_client.py` is a dataclass
with an `event_type` string and a `data` dict; the queue carries
`Optional[StreamEvent]`, `None` being the completion sentinel. -/

/-- A streaming event: `StreamEvent(event_type=…, data=…)`. -/
structure Ev where
  etype : PyStr
  data : JVal
deriving DecidableEq, Repr

/-- A queue element: an event, or the `None` sentinel pushed by
`end_streaming`. -/
inductive QItem where
  | ev : Ev → QItem
  | sentinel : QItem
deriving DecidableEq, Repr

/-! ## The SSE line parser shared by both `agent_client.py` versions -/

/-- One iteration of the `for line in …` loop of
`AgentClient._process_event` (and of `parse_sse_events` in the deployed
asset): strip the line, record the kind after `event:`, or the
JSON-decoded payload after `data:` (falling back to `{"raw": …}` when
decoding fails).  Later matching lines overwrite earlier ones. -/
def procLine (st : Option PyStr × Option JVal) (line : PyStr) :
    Option PyStr × Option JVal :=
  let l := pyStrip line
  if (pyOfString "event:").isPrefixOf l then (some (pyStrip (l.drop 6)), st.2)
  else if (pyOfString "data:").isPrefixOf l then
    (st.1,
     some (match jsonLoads (pyStrip (l.drop 5)) with
           | some v => v
           | none => JVal.obj [(pyOfString "raw", JVal.str (pyStrip (l.drop 5)))]))
  else st

/-- Run the line loop over a list of lines, starting from
`event_type = None, event_data = None`. -/
def lineFold (lines : List PyStr) : Option PyStr × Option JVal :=
  lines.foldl procLine (none, none)

/-! ## `AgentClient._process_event` (main BFF client) -/

/-- The `event:`/`data:` extraction of `_process_event`: the wrapped
format `data: "…"` JSON-decodes the rest of the chunk and parses the
lines of the decoded string (any failure, including a non-string decode,
is swallowed by the surrounding `try`); otherwise the chunk itself is
stripped and split into lines. -/
def parseEventStr (event_str : PyStr) : Option PyStr × Option JVal :=
  if (pyOfString "data: \"").isPrefixOf event_str then
    match jsonLoads (event_str.drop 6) with
    | some (.str inner) => lineFold (splitNl inner)
    | _ => (none, none)
  else lineFold (splitNl (pyStrip event_str))

/-- The upstream-to-downstream dispatch of `_process_event`
(lines 262–291): `TOOL_CALL → tool_start`, `TOOL_RESULT → tool_end`,
`LLM_RESPONSE`/`AGENT_END → message` guarded by truthiness and
inequality with `last_content`, `ERROR → error` passed through, and
everything else dropped.  `Except.error ()` models the `AttributeError`
Python raises when `event_data.get` is called on a decoded non-dict;
that exception escapes `_process_event` into the producer. -/
def dispatchEvent (etype : PyStr) (edata : JVal) (last : JVal) :
    Except Unit (List Ev) :=
  if etype = pyOfString "TOOL_CALL" then
    match edata with
    | .obj kvs =>
      .ok [⟨pyOfString "tool_start",
        .obj [(pyOfString "tool", jget kvs (pyOfString "tool") (.str (pyOfString "unknown"))),
              (pyOfString "args", jget kvs (pyOfString "args") (.obj []))]⟩]
    | _ => .error ()
  else if etype = pyOfString "TOOL_RESULT" then
    match edata with
    | .obj kvs =>
      .ok [⟨pyOfString "tool_end",
        .obj [(pyOfString "tool", jget kvs (pyOfString "tool") (.str (pyOfString "unknown"))),
              (pyOfString "result", jget kvs (pyOfString "result") (.str []))]⟩]
    | _ => .error ()
  else if etype = pyOfString "LLM_RESPONSE" then
    match edata with
    | .obj kvs =>
      let content := jget kvs (pyOfString "content") (.str [])
      if jtruthy content && !pyEq content last then
        .ok [⟨pyOfString "message",
          .obj [(pyOfString "content", content), (pyOfString "partial", .bool true)]⟩]
      else .ok []
    | _ => .error ()
  else if etype = pyOfString "AGENT_END" then
    match edata with
    | .obj kvs =>
      let output := jget kvs (pyOfString "output") (.str [])
      if jtruthy output && !pyEq output last then
        .ok [⟨pyOfString "message",
          .obj [(pyOfString "content", output), (pyOfString "final", .bool true)]⟩]
      else .ok []
    | _ => .error ()
  else if etype = pyOfString "ERROR" then .ok [⟨pyOfString "error", edata⟩]
  else .ok []

/-- `AgentClient._process_event`: returns the events pushed to the queue
for one SSE chunk (`Except.error ()` models an escaping exception).
The function's Python version also returns the updated `last_content`,
but both call sites in `_process_bedrock_stream` discard that return
value, so the producer's `last_content` stays `""` for the whole
session. -/
def processEvent (event_str : PyStr) (last : JVal) : Except Unit (List Ev) :=
  if (pyStrip event_str).isEmpty then .ok []
  else
    match parseEventStr event_str with
    | (some t, some d) =>
      if !t.isEmpty && jtruthy d then dispatchEvent t d last else .ok []
    | _ => .ok []

/-! ## The buffer loop of `AgentClient._process_bedrock_stream` -/

/-- Leftmost split of a buffer at `"\n\n"`, as in
`buffer.split("\n\n", 1)` guarded by `"\n\n" in buffer`:
`some (before, after)` when the delimiter occurs, `none` otherwise. -/
def splitNN : PyStr → Option (PyStr × PyStr)
  | [] => none
  | c :: rest =>
    if c = 10 ∧ rest.head? = some 10 then some ([], rest.tail)
    else (splitNN rest).map (fun p => (c :: p.1, p.2))

theorem splitNN_length : ∀ {s e rest : PyStr}, splitNN s = some (e, rest) →
    e.length + 2 + rest.length = s.length := by
  intro s
  induction s with
  | nil => intro e rest h; simp [splitNN] at h
  | cons c r ih =>
    intro e rest h
    simp only [splitNN] at h
    split at h
    · rename_i hcr
      cases r with
      | nil => simp at hcr
      | cons c₂ r₂ =>
        simp only [Option.some.injEq, Prod.mk.injEq] at h
        simp only [← h.1, ← h.2, List.tail_cons, List.length_cons, List.length_nil]
        omega
    · cases he : splitNN r with
      | none => rw [he] at h; simp at h
      | some p =>
        rw [he] at h
        simp only [Option.map_some', Option.some.injEq, Prod.mk.injEq] at h
        have hih := ih he
        simp only [← h.1, ← h.2, List.length_cons]
        omega

/-- Fuel-bounded body of the `while "\n\n" in buffer:` loop; each
delimiter split consumes at least two characters, so `extract` below
always supplies enough fuel (the fuel exists only to make the recursion
structural). -/
def extractF : Nat → PyStr → List PyStr × PyStr
  | 0, b => ([], b)
  | fuel + 1, b =>
    match splitNN b with
    | none => ([], b)
    | some (e, rest) =>
      let p := extractF fuel rest
      (e :: p.1, p.2)

/-- The `while "\n\n" in buffer:` loop: extract all complete SSE chunks
from the buffer, returning them with the remaining (delimiter-free)
buffer. -/
def extract (s : PyStr) : List PyStr × PyStr := extractF (s.length + 1) s

theorem extractF_congr : ∀ {f₁ f₂ : Nat} {s : PyStr},
    s.length < f₁ → s.length < f₂ → extractF f₁ s = extractF f₂ s := by
  intro f₁
  induction f₁ with
  | zero => intro f₂ s h₁; omega
  | succ g₁ ih =>
    intro f₂ s h₁ h₂
    cases f₂ with
    | zero => omega
    | succ g₂ =>
      simp only [extractF]
      cases he : splitNN s with
      | none => rfl
      | some p =>
        obtain ⟨e, rest⟩ := p
        have hl := splitNN_length he
        have h3 : extractF g₁ rest = extractF g₂ rest := ih (by omega) (by omega)
        dsimp only
        rw [h3]

/-- One-step unfolding of `extract`, matching the loop body
`event_str, buffer = buffer.split("\n\n", 1)`. -/
theorem extract_eq (s : PyStr) : extract s =
    match splitNN s with
    | none => ([], s)
    | some (e, rest) =>
      let p := extract rest
      (e :: p.1, p.2) := by
  show extractF (s.length + 1) s = _
  simp only [extractF]
  cases he : splitNN s with
  | none => rfl
  | some p =>
    obtain ⟨e, rest⟩ := p
    have hl := splitNN_length he
    have h3 : extractF s.length rest = extractF (rest.length + 1) rest :=
      extractF_congr (by omega) (by omega)
    dsimp only
    rw [h3]
    rfl

/-- Processing one transport chunk: append it to the buffer and extract
the newly completed SSE chunks (`buffer += chunk` followed by the
`while` loop). -/
def feedBuf (st : List PyStr × PyStr) (c : PyStr) : List PyStr × PyStr :=
  let p := extract (st.2 ++ c)
  (st.1 ++ p.1, p.2)

/-- The whole `async for chunk in chunk_iter` loop, collecting the
complete SSE chunks in order of extraction together with the final
residual buffer. -/
def extractAll (chunks : List PyStr) : List PyStr × PyStr :=
  chunks.foldl feedBuf ([], [])

/-- `last_content` as the producer passes it to `_process_event`: the
initial `""`.  It never changes, because the producer discards
`_process_event`'s return value at both call sites (lines 190 and 198). -/
def initialLast : JVal := JVal.str []

/-- Process the extracted SSE chunks in order; an escaping exception
(`Except.error`) aborts the loop (the remaining chunks are never read). -/
def runEvents (last : JVal) : List PyStr → List Ev × Bool
  | [] => ([], false)
  | s :: rest =>
    match processEvent s last with
    | .error () => ([], true)
    | .ok evs =>
      let p := runEvents last rest
      (evs ++ p.1, p.2)

/-- The content of the plain-text fallback for a residual buffer
(lines 202–207): the JSON-decoded value if it is a string, `str(parsed)`
for another decoded value, and the stripped buffer when decoding fails. -/
def residContent (buffer : PyStr) : JVal :=
  match jsonLoads buffer with
  | some (.str s) => JVal.str s
  | some v => JVal.str (pyRepr v)
  | none => JVal.str (pyStrip buffer)

/-- The final `message` event pushed by the plain-text fallback. -/
def finalMsg (c : JVal) : Ev :=
  ⟨pyOfString "message", .obj [(pyOfString "content", c), (pyOfString "final", .bool true)]⟩

/-- Handling of the residual buffer after the chunk loop
(lines 192–212): nothing for a whitespace-only buffer, `_process_event`
when it looks like SSE, and one final `message` event otherwise. -/
def residueEvents (buffer : PyStr) (last : JVal) : Except Unit (List Ev) :=
  if (pyStrip buffer).isEmpty then .ok []
  else if (pyOfString "event:").isPrefixOf buffer ||
          (pyOfString "data:").isPrefixOf buffer then
    processEvent buffer last
  else .ok [finalMsg (residContent buffer)]

/-- The parsing part of `_process_bedrock_stream` (lines 123–212) on the
streaming path: the events pushed for a given sequence of transport
chunks, paired with a flag recording whether an exception escaped into
the producer's `except` handler. -/
def producerCore (chunks : List PyStr) : List Ev × Bool :=
  let ex := extractAll chunks
  let r := runEvents initialLast ex.1
  if r.2 then (r.1, true)
  else
    match residueEvents ex.2 initialLast with
    | .ok revs => (r.1 ++ revs, false)
    | .error () => (r.1, true)

/-- The events the producer pushes for a chunk sequence (crash-free
runs). -/
def streamEvents (chunks : List PyStr) : List Ev := (producerCore chunks).1

/-! ## The full producer `_process_bedrock_stream` -/

/-- The initial `agent_start` push (lines 104–107). -/
def agentStartEv (sid : PyStr) : Ev :=
  ⟨pyOfString "agent_start",
   .obj [(pyOfString "session_id", .str sid),
         (pyOfString "status", .str (pyOfString "started"))]⟩

/-- The `error` event pushed by the producer's `except` handler:
`{"error": str(e)}`. -/
def errEv (m : PyStr) : Ev :=
  ⟨pyOfString "error", .obj [(pyOfString "error", .str m)]⟩

/-- Stand-in for `str(e)` of the `AttributeError` raised by
`event_data.get` on a non-dict payload. -/
def attrErrMsg : PyStr := pyOfString "object has no attribute get"

/-- `_process_bedrock_stream` as a queue history: the `agent_start`
event, the events of the chunk loop, an `error` event when an exception
reached the `except` handler (either an internal `AttributeError` or a
transport exception `exc` raised after the chunks), and always the
trailing `None` sentinel from the `finally` block. -/
def producerRun (sid : PyStr) (chunks : List PyStr) (exc : Option PyStr) :
    List QItem :=
  QItem.ev (agentStartEv sid) ::
    (let ex := extractAll chunks
     let r := runEvents initialLast ex.1
     if r.2 then r.1.map QItem.ev ++ [QItem.ev (errEv attrErrMsg), QItem.sentinel]
     else
       match exc with
       | some m => r.1.map QItem.ev ++ [QItem.ev (errEv m), QItem.sentinel]
       | none =>
         match residueEvents ex.2 initialLast with
         | .ok revs => (r.1 ++ revs).map QItem.ev ++ [QItem.sentinel]
         | .error () => r.1.map QItem.ev ++ [QItem.ev (errEv attrErrMsg), QItem.sentinel])

/-! ## The consumer of `AgentClient.invoke_stream` -/

/-- The outcome of one `callback.get_event(timeout=120.0)` call: a queue
item, or `None` after 120 seconds with an empty queue
(`asyncio.TimeoutError` is caught and turned into `None`). -/
inductive GetRes where
  | item : Option Ev → GetRes
  | timeout : GetRes
deriving DecidableEq, Repr

/-- `StreamingCallbackHandler.get_event`: the sentinel and the timeout
are indistinguishable to the caller — both come back as `None`. -/
def getEvent : GetRes → Option Ev
  | .item x => x
  | .timeout => none

/-- The consumer's outbound serialization:
`f"event: {event.event_type}\ndata: {json.dumps(event.data)}\n\n"`. -/
def sseOf (e : Ev) : PyStr :=
  pyOfString "event: " ++ e.etype ++ pyOfString "\ndata: " ++ jdump e.data ++
    pyOfString "\n\n"

/-- The synthetic `start` event yielded before the producer is spawned. -/
def startSSE (sid : PyStr) : PyStr :=
  pyOfString "event: start\ndata: " ++
    jdump (.obj [(pyOfString "session_id", .str sid)]) ++ pyOfString "\n\n"

/-- The terminal `done` event. -/
def doneSSE : PyStr :=
  pyOfString "event: done\ndata: " ++
    jdump (.obj [(pyOfString "status", .str (pyOfString "complete"))]) ++
    pyOfString "\n\n"

/-- The consumer's `while True` loop over successive `get_event`
results: yield the SSE form of each event, and on the first `None`
(sentinel or timeout alike) break and yield `done`.  An exhausted
result list models a consumer still waiting on the queue. -/
def consumeLoop : List GetRes → List PyStr
  | [] => []
  | g :: rest =>
    match getEvent g with
    | none => [doneSSE]
    | some e => sseOf e :: consumeLoop rest

/-- `invoke_stream`'s generator: the immediate `start` event followed by
the queue-draining loop. -/
def consumerRun (sid : PyStr) (gets : List GetRes) : List PyStr :=
  startSSE sid :: consumeLoop gets

/-! ## `parse_sse_events` and `invoke_stream` of the deployed asset
(`src/bff/cdk/cdk.out/asset.567…/app/services/agent_client.py`) -/

/-- Fuel-bounded body of `re.split(r"\n\n+", s)` (fuel only makes the
recursion structural; `splitNN2p` supplies enough). -/
def splitNN2pF : Nat → PyStr → List PyStr
  | 0, s => [s]
  | fuel + 1, s =>
    match splitNN s with
    | none => [s]
    | some (a, b) => a :: splitNN2pF fuel (b.dropWhile (fun c => c = 10))

/-- `re.split(r"\n\n+", s)`: split at each maximal run of two or more
newlines. -/
def splitNN2p (s : PyStr) : List PyStr := splitNN2pF (s.length + 1) s

theorem splitNN2pF_congr : ∀ {f₁ f₂ : Nat} {s : PyStr},
    s.length < f₁ → s.length < f₂ → splitNN2pF f₁ s = splitNN2pF f₂ s := by
  intro f₁
  induction f₁ with
  | zero => intro f₂ s h₁; omega
  | succ g₁ ih =>
    intro f₂ s h₁ h₂
    cases f₂ with
    | zero => omega
    | succ g₂ =>
      simp only [splitNN2pF]
      cases he : splitNN s with
      | none => rfl
      | some p =>
        obtain ⟨a, b⟩ := p
        have hl := splitNN_length he
        have hd : (b.dropWhile (fun c => c = 10)).length ≤ b.length :=
          (b.dropWhile_sublist (p := fun c => c = 10)).length_le
        have h3 : splitNN2pF g₁ (b.dropWhile (fun c => c = 10)) =
            splitNN2pF g₂ (b.dropWhile (fun c => c = 10)) :=
          ih (by omega) (by omega)
        dsimp only
        rw [h3]

/-- One-step unfolding of `splitNN2p`: cut at the first `"\n\n"` and
consume the whole newline run, as the regular expression does. -/
theorem splitNN2p_eq (s : PyStr) : splitNN2p s =
    match splitNN s with
    | none => [s]
    | some (a, b) => a :: splitNN2p (b.dropWhile (fun c => c = 10)) := by
  show splitNN2pF (s.length + 1) s = _
  simp only [splitNN2pF]
  cases he : splitNN s with
  | none => rfl
  | some p =>
    obtain ⟨a, b⟩ := p
    have hl := splitNN_length he
    have hd : (b.dropWhile (fun c => c = 10)).length ≤ b.length :=
      (b.dropWhile_sublist (p := fun c => c = 10)).length_le
    have h3 : splitNN2pF s.length (b.dropWhile (fun c => c = 10)) =
        splitNN2pF ((b.dropWhile (fun c => c = 10)).length + 1)
          (b.dropWhile (fun c => c = 10)) :=
      splitNN2pF_congr (by omega) (by omega)
    dsimp only
    rw [h3]
    rfl

/-- `parse_sse_events(raw_response)`: strip, unwrap a double-encoded
JSON string at most once, split on `\n\n+`, and keep each chunk with
both a truthy `event:` kind and a truthy decoded `data:` payload. -/
def parseSSEvents (raw : PyStr) : List Ev :=
  let content₀ := pyStrip raw
  let content :=
    match jsonLoads content₀ with
    | some (.str s) => s
    | _ => content₀
  (splitNN2p content).foldl
    (fun acc es =>
      if (pyStrip es).isEmpty then acc
      else
        match lineFold (splitNl (pyStrip es)) with
        | (some t, some d) =>
          if !t.isEmpty && jtruthy d then acc ++ [⟨t, d⟩] else acc
        | _ => acc) []

/-! ## `StreamEvent.to_sse` of `src/bedrock/streaming_utils.py` -/

/-- The members of `StreamEventType`, a `str` enum. -/
inductive StreamEventType where
  | agent_start | agent_end | agent_step
  | llm_start | llm_token | llm_end
  | tool_start | tool_progress | tool_end
  | error | heartbeat
deriving DecidableEq, Repr

/-- The string value of each `StreamEventType` member. -/
def StreamEventType.toStr : StreamEventType → PyStr
  | .agent_start => pyOfString "agent_start"
  | .agent_end => pyOfString "agent_end"
  | .agent_step => pyOfString "agent_step"
  | .llm_start => pyOfString "llm_start"
  | .llm_token => pyOfString "llm_token"
  | .llm_end => pyOfString "llm_end"
  | .tool_start => pyOfString "tool_start"
  | .tool_progress => pyOfString "tool_progress"
  | .tool_end => pyOfString "tool_end"
  | .error => pyOfString "error"
  | .heartbeat => pyOfString "heartbeat"

/-- `StreamEvent.to_sse`:
`f"event: {self.event_type}\ndata: {json.dumps(event_dict['data'])}\n\n"`
(the timestamp and metadata of `to_dict` are not wire-visible). -/
def toSSE (et : PyStr) (data : JVal) : PyStr :=
  pyOfString "event: " ++ et ++ pyOfString "\ndata: " ++ jdump data ++
    pyOfString "\n\n"

/-! ## Round trip of the `json` model: helper lemmas -/

theorem natToDec_ne_nil (n : Nat) : natToDec n ≠ [] := by
  unfold natToDec
  split
  · simp
  · simp

theorem natToDec_all_digits (n : Nat) : ∀ c ∈ natToDec n, isDigit c := by
  induction n using Nat.strong_induction_on with
  | _ n ih =>
    unfold natToDec
    split
    · intro c hc
      simp only [List.mem_singleton] at hc
      subst hc
      simp only [isDigit, decide_eq_true_eq]
      omega
    · intro c hc
      rw [List.mem_append] at hc
      rcases hc with hc | hc
      · exact ih (n / 10) (Nat.div_lt_self (by omega) (by omega)) c hc
      · simp only [List.mem_singleton] at hc
        subst hc
        simp only [isDigit, decide_eq_true_eq]
        omega

theorem natToDec_head_ne_zero {n : Nat} (h : n ≠ 0) :
    ∀ c, (natToDec n).head? = some c → c ≠ 48 := by
  induction n using Nat.strong_induction_on with
  | _ n ih =>
    unfold natToDec
    split
    · intro c hc
      simp only [List.head?_cons, Option.some.injEq] at hc
      omega
    · intro c hc
      rw [List.head?_append_of_ne_nil _ (natToDec_ne_nil _)] at hc
      exact ih (n / 10) (Nat.div_lt_self (by omega) (by omega)) (by omega) c hc

theorem decValue_append (l : PyStr) (d : Nat) :
    decValue (l ++ [d]) = decValue l * 10 + (d - 48) := by
  simp [decValue, List.foldl_append]

theorem decValue_natToDec (n : Nat) : decValue (natToDec n) = n := by
  induction n using Nat.strong_induction_on with
  | _ n ih =>
    unfold natToDec
    split
    · simp only [decValue, List.foldl]
      omega
    · rw [decValue_append, ih (n / 10) (Nat.div_lt_self (by omega) (by omega))]
      omega

theorem takeWhile_append_all {p : Nat → Bool} {l t : PyStr}
    (hl : ∀ c ∈ l, p c) (ht : ∀ c, t.head? = some c → ¬p c) :
    (l ++ t).takeWhile p = l := by
  induction l with
  | nil =>
    cases t with
    | nil => rfl
    | cons c r =>
      simp only [List.nil_append, List.takeWhile_cons]
      rw [if_neg]
      exact fun h => ht c rfl (by simp [h])
  | cons c r ih =>
    simp only [List.cons_append, List.takeWhile_cons]
    rw [if_pos (hl c (by simp)), ih (fun x hx => hl x (by simp [hx]))]

theorem dropWhile_append_all {p : Nat → Bool} {l t : PyStr}
    (hl : ∀ c ∈ l, p c) (ht : ∀ c, t.head? = some c → ¬p c) :
    (l ++ t).dropWhile p = t := by
  induction l with
  | nil =>
    cases t with
    | nil => rfl
    | cons c r =>
      simp only [List.nil_append, List.dropWhile_cons]
      rw [if_neg]
      exact fun h => ht c rfl (by simp [h])
  | cons c r ih =>
    simp only [List.cons_append, List.dropWhile_cons]
    rw [if_pos (hl c (by simp)), ih (fun x hx => hl x (by simp [hx]))]

/-- `nextSafe t` holds when `t` does not start with a decimal digit, so
that a number ending right before `t` parses back unchanged. -/
def nextSafe (t : PyStr) : Prop := ∀ c, t.head? = some c → ¬isDigit c

theorem parseNum_natToDec {n : Nat} {t : PyStr} (ht : nextSafe t) :
    parseNum (natToDec n ++ t) = some (n, t) := by
  unfold parseNum
  rw [takeWhile_append_all (natToDec_all_digits n) ht,
      dropWhile_append_all (natToDec_all_digits n) ht]
  rw [if_neg (by simp [natToDec_ne_nil n])]
  rw [if_neg, decValue_natToDec]
  intro ⟨h1, h2⟩
  have hne : n ≠ 0 := by
    intro h0
    subst h0
    simp [natToDec] at h2
  have := natToDec_head_ne_zero hne
  cases hh : (natToDec n).head? with
  | none => rw [hh] at h1; simp at h1
  | some c =>
    rw [hh] at h1
    exact this c hh (by simpa using h1)

theorem hexVal_hexDigit {d : Nat} (h : d < 16) : hexVal (hexDigit d) = some d := by
  interval_cases d <;> rfl

theorem hex4parse_hex4 {n : Nat} (h : n < 65536) (t : PyStr) :
    hex4parse (hex4 n ++ t) = some (n, t) := by
  simp only [hex4, List.cons_append, List.nil_append, hex4parse]
  rw [hexVal_hexDigit (Nat.mod_lt _ (by omega)),
      hexVal_hexDigit (Nat.mod_lt _ (by omega)),
      hexVal_hexDigit (Nat.mod_lt _ (by omega)),
      hexVal_hexDigit (Nat.mod_lt _ (by omega))]
  dsimp only
  have hn : n / 4096 % 16 * 4096 + n / 256 % 16 * 256 + n / 16 % 16 * 16 + n % 16 = n := by
    omega
  rw [hn]

theorem parseStr_u (f : Nat) (s₁ : PyStr) :
    parseStr (f + 1) (92 :: 117 :: s₁) =
      match hex4parse s₁ with
      | none => none
      | some (n, s₂) =>
        if 55296 ≤ n ∧ n ≤ 56319 then
          match s₂ with
          | c₂ :: c₃ :: s₃ =>
            if c₂ = 92 ∧ c₃ = 117 then
              match hex4parse s₃ with
              | some (m, s₄) =>
                if 56320 ≤ m ∧ m ≤ 57343 then
                  (parseStr f s₄).map
                    (fun r => ((65536 + (n - 55296) * 1024 + (m - 56320)) :: r.1, r.2))
                else (parseStr f s₂).map (fun r => (n :: r.1, r.2))
              | none => (parseStr f s₂).map (fun r => (n :: r.1, r.2))
            else (parseStr f s₂).map (fun r => (n :: r.1, r.2))
          | _ => (parseStr f s₂).map (fun r => (n :: r.1, r.2))
        else (parseStr f s₂).map (fun r => (n :: r.1, r.2)) := by
  rw [parseStr]
  norm_num

theorem escStr_cons (c : Nat) (s : PyStr) :
    escStr (c :: s) = escapeChar c ++ escStr s := by
  simp [escStr]

/-- The escaped string body followed by the closing quote parses back to
the original string (for valid Unicode scalar values). -/
theorem parseStr_escape :
    ∀ (s : PyStr) (fuel : Nat) (t : PyStr),
      (∀ c ∈ s, c < 1114112 ∧ ¬(55296 ≤ c ∧ c ≤ 57343)) → s.length < fuel →
      parseStr fuel (escStr s ++ 34 :: t) = some (s, t) := by
  intro s
  induction s with
  | nil =>
    intro fuel t _ hf
    cases fuel with
    | zero => omega
    | succ f => rfl
  | cons c s' ih =>
    intro fuel t hwf hf
    cases fuel with
    | zero => simp at hf
    | succ f =>
      obtain ⟨hlt, hsur⟩ := hwf c (by simp)
      have hwf' : ∀ x ∈ s', x < 1114112 ∧ ¬(55296 ≤ x ∧ x ≤ 57343) :=
        fun x hx => hwf x (List.mem_cons_of_mem _ hx)
      have hih := ih f t hwf' (by simp only [List.length_cons] at hf; omega)
      rw [escStr_cons, List.append_assoc]
      unfold escapeChar
      split_ifs with h34 h92 h8 h9 h10 h12 h13 hpr hbmp
      · subst h34
        simp only [List.cons_append, List.nil_append, parseStr, shortEscape]
        norm_num
        rw [hih]
      · subst h92
        simp only [List.cons_append, List.nil_append, parseStr, shortEscape]
        norm_num
        rw [hih]
      · subst h8
        simp only [List.cons_append, List.nil_append, parseStr, shortEscape]
        norm_num
        rw [hih]
      · subst h9
        simp only [List.cons_append, List.nil_append, parseStr, shortEscape]
        norm_num
        rw [hih]
      · subst h10
        simp only [List.cons_append, List.nil_append, parseStr, shortEscape]
        norm_num
        rw [hih]
      · subst h12
        simp only [List.cons_append, List.nil_append, parseStr, shortEscape]
        norm_num
        rw [hih]
      · subst h13
        simp only [List.cons_append, List.nil_append, parseStr, shortEscape]
        norm_num
        rw [hih]
      · -- literal printable character
        simp only [List.cons_append, List.nil_append]
        rw [parseStr.eq_def]
        dsimp only
        rw [if_neg h34, if_neg h92, if_neg (by omega : ¬c < 32)]
        rw [hih]
        rfl
      · -- BMP character escaped as a single `\uXXXX`
        simp only [List.cons_append, List.nil_append]
        rw [parseStr_u]
        rw [hex4parse_hex4 (by omega)]
        dsimp only
        rw [if_neg (by omega : ¬(55296 ≤ c ∧ c ≤ 56319))]
        rw [hih]
        rfl
      · -- supplementary character escaped as a surrogate pair
        simp only [List.cons_append, List.nil_append, List.append_assoc]
        rw [parseStr_u]
        rw [hex4parse_hex4 (by omega)]
        dsimp only
        rw [if_pos (by omega : 55296 ≤ 55296 + (c - 65536) / 1024 ∧
              55296 + (c - 65536) / 1024 ≤ 56319)]
        rw [if_pos (by norm_num : (92 : Nat) = 92 ∧ (117 : Nat) = 117)]
        rw [hex4parse_hex4 (by omega)]
        dsimp only
        rw [if_pos (by omega : 56320 ≤ 56320 + (c - 65536) % 1024 ∧
              56320 + (c - 65536) % 1024 ≤ 57343)]
        rw [hih]
        simp only [Option.map_some']
        have hc : 65536 + (55296 + (c - 65536) / 1024 - 55296) * 1024 +
            (56320 + (c - 65536) % 1024 - 56320) = c := by
          omega
        rw [hc]

/-! ## Round trip of the `json` model: the value level -/

mutual
/-- All strings in the value are sequences of Unicode scalar values (what
a well-formed Python `str` holds). -/
def WFj : JVal → Bool
  | .null => true
  | .bool _ => true
  | .int _ => true
  | .str s => s.all (fun c => c < 1114112 ∧ ¬(55296 ≤ c ∧ c ≤ 57343))
  | .arr xs => WFjList xs
  | .obj kvs => WFjObj kvs

/-- `WFj` on every element. -/
def WFjList : List JVal → Bool
  | [] => true
  | x :: xs => WFj x && WFjList xs

/-- `WFj` on every key and value. -/
def WFjObj : List (PyStr × JVal) → Bool
  | [] => true
  | (k, v) :: kvs =>
    k.all (fun c => c < 1114112 ∧ ¬(55296 ≤ c ∧ c ≤ 57343)) && WFj v && WFjObj kvs
end

mutual
/-- Fuel bound sufficient to parse the dump of a value. -/
def jsizeV : JVal → Nat
  | .null => 1
  | .bool _ => 1
  | .int _ => 1
  | .str s => s.length + 2
  | .arr xs => jsizeL xs + 1
  | .obj kvs => jsizeM kvs + 1

/-- Fuel bound for a dumped item list. -/
def jsizeL : List JVal → Nat
  | [] => 1
  | x :: xs => jsizeV x + jsizeL xs + 1

/-- Fuel bound for a dumped member list. -/
def jsizeM : List (PyStr × JVal) → Nat
  | [] => 1
  | (k, v) :: kvs => k.length + jsizeV v + jsizeM kvs + 2
end

theorem escStr_length_ge (s : PyStr) : s.length ≤ (escStr s).length := by
  induction s with
  | nil => simp [escStr]
  | cons c r ih =>
    rw [escStr_cons, List.length_append, List.length_cons]
    have h1 : 1 ≤ (escapeChar c).length := by
      unfold escapeChar
      split_ifs <;> simp
    omega

theorem skipWs_cons_ws {c : Nat} (h : jsonWs c) (l : PyStr) :
    skipWs (c :: l) = skipWs l := by
  simp [skipWs, List.dropWhile_cons, h]

theorem skipWs_no_ws {l : PyStr} (h : ∀ c, l.head? = some c → ¬jsonWs c) :
    skipWs l = l := by
  cases l with
  | nil => rfl
  | cons c r =>
    have hc := h c rfl
    simp [skipWs, List.dropWhile_cons, hc]

/-- The first character of a dump is never JSON whitespace and never a
closing bracket or brace. -/
theorem jdump_head (v : JVal) :
    ∃ c r, jdump v = c :: r ∧ ¬jsonWs c ∧ c ≠ 93 ∧ c ≠ 125 := by
  cases v with
  | null => exact ⟨110, _, rfl, by decide, by decide, by decide⟩
  | bool b =>
    cases b with
    | true => exact ⟨116, _, rfl, by decide, by decide, by decide⟩
    | false => exact ⟨102, _, rfl, by decide, by decide, by decide⟩
  | int n =>
    show ∃ c r, intToDec n = c :: r ∧ _
    unfold intToDec
    split
    · exact ⟨45, _, rfl, by decide, by decide, by decide⟩
    · cases heq : natToDec n.natAbs with
      | nil => exact absurd heq (natToDec_ne_nil _)
      | cons c r =>
        have hd : isDigit c := natToDec_all_digits _ c (by rw [heq]; simp)
        simp only [isDigit, decide_eq_true_eq] at hd
        refine ⟨c, r, rfl, ?_, ?_, ?_⟩
        · simp only [jsonWs, decide_eq_true_eq]
          omega
        · omega
        · omega
  | str s => exact ⟨34, _, rfl, by decide, by decide, by decide⟩
  | arr xs => exact ⟨91, _, rfl, by decide, by decide, by decide⟩
  | obj kvs => exact ⟨123, _, rfl, by decide, by decide, by decide⟩

/-- `jdumpItems (x :: xs)` starts with the dump of `x`. -/
theorem jdumpItems_cons_ex (x : JVal) (xs : List JVal) :
    ∃ w, jdumpItems (x :: xs) = jdump x ++ w := by
  cases xs with
  | nil => exact ⟨[], by simp [jdumpItems]⟩
  | cons y r => exact ⟨44 :: 32 :: jdumpItems (y :: r), by simp [jdumpItems]⟩

/-- `jdumpMembers ((k, v) :: kvs)` starts with the opening quote of the
key. -/
theorem jdumpMembers_cons_ex (kv : PyStr × JVal) (kvs : List (PyStr × JVal)) :
    ∃ w, jdumpMembers (kv :: kvs) = 34 :: w := by
  obtain ⟨k, v⟩ := kv
  cases kvs with
  | nil =>
    refine ⟨escStr k ++ 34 :: 58 :: 32 :: jdump v, ?_⟩
    show 34 :: escStr k ++ [34] ++ 58 :: 32 :: jdump v = _
    simp
  | cons m r =>
    refine ⟨escStr k ++ 34 :: 58 :: 32 :: (jdump v ++ 44 :: 32 :: jdumpMembers (m :: r)), ?_⟩
    show 34 :: escStr k ++ [34] ++ 58 :: 32 :: jdump v ++ 44 :: 32 :: jdumpMembers (m :: r) = _
    simp

/-- `skipWs` leaves a dump-headed string unchanged. -/
theorem skipWs_jdump (v : JVal) (t : PyStr) :
    skipWs (jdump v ++ t) = jdump v ++ t := by
  obtain ⟨c, r, hcr, hws, _, _⟩ := jdump_head v
  rw [hcr]
  refine skipWs_no_ws ?_
  intro x hx
  simp only [List.cons_append, List.head?_cons, Option.some.injEq] at hx
  rw [← hx]
  exact hws

theorem WFstr_mem {s : PyStr}
    (h : s.all (fun c => c < 1114112 ∧ ¬(55296 ≤ c ∧ c ≤ 57343)) = true) :
    ∀ c ∈ s, c < 1114112 ∧ ¬(55296 ≤ c ∧ c ≤ 57343) := by
  intro c hc
  have hx := List.all_eq_true.mp h c hc
  simp only [decide_eq_true_eq] at hx
  exact hx

theorem nextSafe_cons {c : Nat} (h : ¬isDigit c) (t : PyStr) : nextSafe (c :: t) := by
  intro x hx
  simp only [List.head?_cons, Option.some.injEq] at hx
  rw [← hx]
  exact h

theorem nextSafe_nil : nextSafe [] := by
  intro x hx
  simp at hx

mutual
/-- `json.loads` parses the dump of a value back to the value itself
(given enough fuel and a digit-free continuation). -/
theorem parseVal_jdump : ∀ (v : JVal) (fuel : Nat) (t : PyStr),
    WFj v → jsizeV v ≤ fuel → nextSafe t →
    parseVal fuel (jdump v ++ t) = some (v, t)
  | .null => by
    intro fuel t _ hsz _
    cases fuel with
    | zero => simp [jsizeV] at hsz
    | succ f =>
      have h : jdump JVal.null ++ t = 110 :: 117 :: 108 :: 108 :: t := rfl
      rw [h, parseVal.eq_def]
      norm_num
  | .bool true => by
    intro fuel t _ hsz _
    cases fuel with
    | zero => simp [jsizeV] at hsz
    | succ f =>
      have h : jdump (JVal.bool true) ++ t = 116 :: 114 :: 117 :: 101 :: t := rfl
      rw [h, parseVal.eq_def]
      norm_num
  | .bool false => by
    intro fuel t _ hsz _
    cases fuel with
    | zero => simp [jsizeV] at hsz
    | succ f =>
      have h : jdump (JVal.bool false) ++ t = 102 :: 97 :: 108 :: 115 :: 101 :: t := rfl
      rw [h, parseVal.eq_def]
      norm_num
  | .int n => by
    intro fuel t _ hsz hns
    cases fuel with
    | zero => simp [jsizeV] at hsz
    | succ f =>
      show parseVal (f + 1) (intToDec n ++ t) = _
      unfold intToDec
      split
      · -- negative: leading minus sign
        rename_i hneg
        rw [List.cons_append, parseVal.eq_def]
        norm_num
        rw [parseNum_natToDec hns]
        exact ⟨n.natAbs, rfl, by omega⟩
      · -- non-negative: leading digit
        rename_i hneg
        cases heq : natToDec n.natAbs with
        | nil => exact absurd heq (natToDec_ne_nil _)
        | cons c r =>
          have hd : isDigit c := natToDec_all_digits _ c (by rw [heq]; simp)
          have hd' := hd
          simp only [isDigit, decide_eq_true_eq] at hd'
          rw [List.cons_append, parseVal.eq_def]
          dsimp only
          rw [if_neg (by omega : ¬c = 34), if_neg (by omega : ¬c = 123),
              if_neg (by omega : ¬c = 91), if_neg (by omega : ¬c = 110),
              if_neg (by omega : ¬c = 116), if_neg (by omega : ¬c = 102),
              if_neg (by omega : ¬c = 45), if_pos hd]
          rw [show c :: (r ++ t) = (c :: r) ++ t from rfl, ← heq]
          rw [parseNum_natToDec hns]
          show some (JVal.int ((n.natAbs : Nat) : Int), t) = some (JVal.int n, t)
          have hval : ((n.natAbs : Nat) : Int) = n := by omega
          rw [hval]
  | .str s => by
    intro fuel t hwf hsz _
    cases fuel with
    | zero => simp [jsizeV] at hsz
    | succ f =>
      have hstep : jdump (JVal.str s) ++ t = 34 :: (escStr s ++ 34 :: t) := by
        show (34 :: escStr s ++ [34]) ++ t = _
        simp
      rw [hstep, parseVal.eq_def]
      dsimp only
      rw [if_pos rfl]
      rw [parseStr_escape s f t (WFstr_mem hwf) (by simp only [jsizeV] at hsz; omega)]
      rfl
  | .arr [] => by
    intro fuel t _ hsz _
    cases fuel with
    | zero => simp [jsizeV] at hsz
    | succ f =>
      have h : jdump (JVal.arr []) ++ t = 91 :: 93 :: t := rfl
      rw [h, parseVal.eq_def]
      dsimp only
      rw [if_neg (by norm_num : ¬(91 : Nat) = 34), if_neg (by norm_num : ¬(91 : Nat) = 123),
          if_pos rfl]
      rw [skipWs_no_ws (by intro x hx; simp only [List.head?_cons, Option.some.injEq] at hx
                           subst hx; decide)]
      dsimp only
      rw [if_pos rfl]
  | .arr (x :: xs) => by
    intro fuel t hwf hsz _
    cases fuel with
    | zero => simp [jsizeV] at hsz
    | succ f =>
      have hstep : jdump (JVal.arr (x :: xs)) ++ t =
          91 :: (jdumpItems (x :: xs) ++ 93 :: t) := by
        show (91 :: jdumpItems (x :: xs) ++ [93]) ++ t = _
        simp
      rw [hstep, parseVal.eq_def]
      dsimp only
      rw [if_neg (by norm_num : ¬(91 : Nat) = 34), if_neg (by norm_num : ¬(91 : Nat) = 123),
          if_pos rfl]
      obtain ⟨w, hw⟩ := jdumpItems_cons_ex x xs
      obtain ⟨c, r₀, hcr, hws, h93, _⟩ := jdump_head x
      have hshape : jdumpItems (x :: xs) ++ 93 :: t = c :: (r₀ ++ w ++ 93 :: t) := by
        rw [hw, hcr]
        simp
      rw [hshape]
      rw [skipWs_no_ws (by intro z hz; simp only [List.head?_cons, Option.some.injEq] at hz
                           rw [← hz]; exact hws)]
      dsimp only
      rw [if_neg h93, ← hshape]
      rw [parseItems_jdump (x :: xs) f t (by simp)
          (by simpa only [WFj] using hwf) (by simp only [jsizeV] at hsz; omega)]
      rfl
  | .obj [] => by
    intro fuel t _ hsz _
    cases fuel with
    | zero => simp [jsizeV] at hsz
    | succ f =>
      have h : jdump (JVal.obj []) ++ t = 123 :: 125 :: t := rfl
      rw [h, parseVal.eq_def]
      dsimp only
      rw [if_neg (by norm_num : ¬(123 : Nat) = 34), if_pos rfl]
      rw [skipWs_no_ws (by intro x hx; simp only [List.head?_cons, Option.some.injEq] at hx
                           subst hx; decide)]
      dsimp only
      rw [if_pos rfl]
  | .obj ((k, v) :: kvs) => by
    intro fuel t hwf hsz _
    cases fuel with
    | zero => simp [jsizeV] at hsz
    | succ f =>
      obtain ⟨w, hw⟩ := jdumpMembers_cons_ex (k, v) kvs
      have hstep : jdump (JVal.obj ((k, v) :: kvs)) ++ t =
          123 :: (34 :: (w ++ 125 :: t)) := by
        show (123 :: jdumpMembers ((k, v) :: kvs) ++ [125]) ++ t = _
        rw [hw]
        simp
      rw [hstep, parseVal.eq_def]
      dsimp only
      rw [if_neg (by norm_num : ¬(123 : Nat) = 34), if_pos rfl]
      rw [skipWs_no_ws (by intro z hz; simp only [List.head?_cons, Option.some.injEq] at hz
                           subst hz; decide)]
      dsimp only
      rw [if_neg (by norm_num : ¬(34 : Nat) = 125)]
      rw [show (34 : Nat) :: (w ++ 125 :: t) = jdumpMembers ((k, v) :: kvs) ++ 125 :: t
          from by rw [hw]; simp]
      rw [parseMembers_jdump ((k, v) :: kvs) f t (by simp)
          (by simpa only [WFj] using hwf) (by simp only [jsizeV] at hsz; omega)]
      rfl

/-- `parseItems` parses a dumped item list followed by `]`. -/
theorem parseItems_jdump : ∀ (xs : List JVal) (fuel : Nat) (t : PyStr),
    xs ≠ [] → WFjList xs = true → jsizeL xs ≤ fuel →
    parseItems fuel (jdumpItems xs ++ 93 :: t) = some (xs, t)
  | [] => by intro fuel t h; exact absurd rfl h
  | [x] => by
    intro fuel t _ hwf hsz
    cases fuel with
    | zero => simp [jsizeL] at hsz
    | succ f =>
      have hwx : WFj x = true := by
        simp only [WFjList, Bool.and_eq_true] at hwf
        exact hwf.1
      show parseItems (f + 1) (jdump x ++ 93 :: t) = _
      rw [parseItems.eq_def]
      dsimp only
      rw [parseVal_jdump x f (93 :: t) hwx
          (by simp only [jsizeL] at hsz; omega) (nextSafe_cons (by decide) t)]
      dsimp only
      rw [skipWs_no_ws (by intro y hy; simp only [List.head?_cons,
        Option.some.injEq] at hy; subst hy; decide)]
      dsimp only
      rw [if_neg (by norm_num : ¬(93 : Nat) = 44), if_pos rfl]
  | x :: y :: xs => by
    intro fuel t _ hwf hsz
    cases fuel with
    | zero => simp [jsizeL] at hsz
    | succ f =>
      have hwx : WFj x = true ∧ WFjList (y :: xs) = true := by
        simp only [WFjList, Bool.and_eq_true] at hwf
        refine ⟨hwf.1, ?_⟩
        simp only [WFjList, Bool.and_eq_true]
        exact hwf.2
      have hshape : jdumpItems (x :: y :: xs) ++ 93 :: t =
          jdump x ++ (44 :: 32 :: (jdumpItems (y :: xs) ++ 93 :: t)) := by
        show (jdump x ++ 44 :: 32 :: jdumpItems (y :: xs)) ++ 93 :: t = _
        simp
      rw [hshape, parseItems.eq_def]
      dsimp only
      rw [parseVal_jdump x f _ hwx.1
          (by simp only [jsizeL] at hsz; omega) (nextSafe_cons (by decide) _)]
      dsimp only
      rw [skipWs_no_ws (by intro z hz; simp only [List.head?_cons,
        Option.some.injEq] at hz; subst hz; decide)]
      dsimp only
      rw [if_pos rfl]
      rw [skipWs_cons_ws (by decide)]
      obtain ⟨w, hw⟩ := jdumpItems_cons_ex y xs
      obtain ⟨c, r₀, hcr, hws, _, _⟩ := jdump_head y
      rw [show skipWs (jdumpItems (y :: xs) ++ 93 :: t) = jdumpItems (y :: xs) ++ 93 :: t
          from by
            rw [hw, hcr]
            simp only [List.cons_append, List.append_assoc]
            exact skipWs_no_ws (by intro z hz; simp only [List.head?_cons,
              Option.some.injEq] at hz; rw [← hz]; exact hws)]
      rw [parseItems_jdump (y :: xs) f t (by simp) hwx.2
          (by simp only [jsizeL] at hsz ⊢; omega)]
      rfl

/-- `parseMembers` parses a dumped member list followed by `}`. -/
theorem parseMembers_jdump : ∀ (kvs : List (PyStr × JVal)) (fuel : Nat) (t : PyStr),
    kvs ≠ [] → WFjObj kvs = true → jsizeM kvs ≤ fuel →
    parseMembers fuel (jdumpMembers kvs ++ 125 :: t) = some (kvs, t)
  | [] => by intro fuel t h; exact absurd rfl h
  | [(k, v)] => by
    intro fuel t _ hwf hsz
    cases fuel with
    | zero => simp [jsizeM] at hsz
    | succ f =>
      have hwk : (k.all (fun c => c < 1114112 ∧ ¬(55296 ≤ c ∧ c ≤ 57343)) = true) ∧
          WFj v = true := by
        simp only [WFjObj, Bool.and_eq_true] at hwf
        exact ⟨hwf.1.1, hwf.1.2⟩
      have hshape : jdumpMembers [(k, v)] ++ 125 :: t =
          34 :: (escStr k ++ 34 :: (58 :: 32 :: (jdump v ++ 125 :: t))) := by
        show (34 :: escStr k ++ [34] ++ 58 :: 32 :: jdump v) ++ 125 :: t = _
        simp
      rw [hshape, parseMembers.eq_def]
      dsimp only
      rw [if_pos rfl]
      rw [parseStr_escape k f _ (WFstr_mem hwk.1) (by simp only [jsizeM] at hsz; omega)]
      dsimp only
      rw [skipWs_no_ws (by intro z hz; simp only [List.head?_cons,
        Option.some.injEq] at hz; subst hz; decide)]
      dsimp only
      rw [if_pos rfl]
      rw [skipWs_cons_ws (by decide)]
      obtain ⟨c, r₀, hcr, hws, _, _⟩ := jdump_head v
      rw [show skipWs (jdump v ++ 125 :: t) = jdump v ++ 125 :: t
          from by
            rw [hcr]
            simp only [List.cons_append]
            exact skipWs_no_ws (by intro z hz; simp only [List.head?_cons,
              Option.some.injEq] at hz; rw [← hz]; exact hws)]
      rw [parseVal_jdump v f _ hwk.2 (by simp only [jsizeM] at hsz; omega)
          (nextSafe_cons (by decide) _)]
      dsimp only
      rw [skipWs_no_ws (by intro z hz; simp only [List.head?_cons,
        Option.some.injEq] at hz; subst hz; decide)]
      dsimp only
      rw [if_neg (by norm_num : ¬(125 : Nat) = 44), if_pos rfl]
  | (k, v) :: m :: kvs => by
    intro fuel t _ hwf hsz
    cases fuel with
    | zero => simp [jsizeM] at hsz
    | succ f =>
      have hwk : (k.all (fun c => c < 1114112 ∧ ¬(55296 ≤ c ∧ c ≤ 57343)) = true) ∧
          WFj v = true ∧ WFjObj (m :: kvs) = true := by
        simp only [WFjObj, Bool.and_eq_true] at hwf
        refine ⟨hwf.1.1, hwf.1.2, ?_⟩
        simp only [WFjObj, Bool.and_eq_true]
        exact hwf.2
      have hshape : jdumpMembers ((k, v) :: m :: kvs) ++ 125 :: t =
          34 :: (escStr k ++ 34 :: (58 :: 32 :: (jdump v ++
            (44 :: 32 :: (jdumpMembers (m :: kvs) ++ 125 :: t))))) := by
        show (34 :: escStr k ++ [34] ++ 58 :: 32 :: jdump v ++
            44 :: 32 :: jdumpMembers (m :: kvs)) ++ 125 :: t = _
        simp
      rw [hshape, parseMembers.eq_def]
      dsimp only
      rw [if_pos rfl]
      rw [parseStr_escape k f _ (WFstr_mem hwk.1) (by simp only [jsizeM] at hsz; omega)]
      dsimp only
      rw [skipWs_no_ws (by intro z hz; simp only [List.head?_cons,
        Option.some.injEq] at hz; subst hz; decide)]
      dsimp only
      rw [if_pos rfl]
      rw [skipWs_cons_ws (by decide)]
      obtain ⟨c, r₀, hcr, hws, _, _⟩ := jdump_head v
      rw [show skipWs (jdump v ++ 44 :: 32 :: (jdumpMembers (m :: kvs) ++ 125 :: t)) =
          jdump v ++ 44 :: 32 :: (jdumpMembers (m :: kvs) ++ 125 :: t)
          from by
            rw [hcr]
            simp only [List.cons_append]
            exact skipWs_no_ws (by intro z hz; simp only [List.head?_cons,
              Option.some.injEq] at hz; rw [← hz]; exact hws)]
      rw [parseVal_jdump v f _ hwk.2.1 (by simp only [jsizeM] at hsz; omega)
          (nextSafe_cons (by decide) _)]
      dsimp only
      rw [skipWs_no_ws (by intro z hz; simp only [List.head?_cons,
        Option.some.injEq] at hz; subst hz; decide)]
      dsimp only
      rw [if_pos rfl]
      rw [skipWs_cons_ws (by decide)]
      obtain ⟨w, hw⟩ := jdumpMembers_cons_ex m kvs
      rw [show skipWs (jdumpMembers (m :: kvs) ++ 125 :: t) =
          jdumpMembers (m :: kvs) ++ 125 :: t
          from by
            rw [hw]
            simp only [List.cons_append]
            exact skipWs_no_ws (by intro z hz; simp only [List.head?_cons,
              Option.some.injEq] at hz; subst hz; decide)]
      rw [parseMembers_jdump (m :: kvs) f t (by simp) hwk.2.2
          (by simp only [jsizeM] at hsz ⊢; omega)]
      rfl
end

theorem intToDec_ne_nil (n : Int) : intToDec n ≠ [] := by
  unfold intToDec
  split
  · simp
  · exact natToDec_ne_nil _

mutual
/-- The fuel bound is at most twice the dump length. -/
theorem jsizeV_le : ∀ v : JVal, jsizeV v ≤ 2 * (jdump v).length
  | .null => by simp [jsizeV, jdump, pyOfString]
  | .bool true => by simp [jsizeV, jdump, pyOfString]
  | .bool false => by simp [jsizeV, jdump, pyOfString]
  | .int n => by
    have h := intToDec_ne_nil n
    have hl : 1 ≤ (intToDec n).length := by
      cases he : intToDec n with
      | nil => exact absurd he h
      | cons c r => simp
    simp only [jsizeV, jdump]
    omega
  | .str s => by
    have h := escStr_length_ge s
    simp only [jsizeV, jdump, List.length_cons, List.length_append]
    simp only [List.length_cons, List.length_nil]
    omega
  | .arr xs => by
    have h := jsizeL_le xs
    simp only [jsizeV, jdump, List.length_cons, List.length_append]
    simp only [List.length_cons, List.length_nil]
    omega
  | .obj kvs => by
    have h := jsizeM_le kvs
    simp only [jsizeV, jdump, List.length_cons, List.length_append]
    simp only [List.length_cons, List.length_nil]
    omega

/-- Fuel bound for item lists. -/
theorem jsizeL_le : ∀ xs : List JVal, jsizeL xs ≤ 2 * (jdumpItems xs).length + 2
  | [] => by simp [jsizeL, jdumpItems]
  | [x] => by
    have h := jsizeV_le x
    simp only [jsizeL, jsizeL.eq_def, jdumpItems]
    omega
  | x :: y :: xs => by
    have h1 := jsizeV_le x
    have h2 := jsizeL_le (y :: xs)
    simp only [jsizeL] at h2 ⊢
    simp only [jdumpItems, List.length_append, List.length_cons]
    omega

/-- Fuel bound for member lists. -/
theorem jsizeM_le : ∀ kvs : List (PyStr × JVal), jsizeM kvs ≤ 2 * (jdumpMembers kvs).length + 2
  | [] => by simp [jsizeM, jdumpMembers]
  | [(k, v)] => by
    have h1 := jsizeV_le v
    have h2 := escStr_length_ge k
    simp only [jsizeM, jsizeM.eq_def, jdumpMembers, List.length_append, List.length_cons]
    omega
  | (k, v) :: m :: kvs => by
    have h1 := jsizeV_le v
    have h2 := escStr_length_ge k
    have h3 := jsizeM_le (m :: kvs)
    simp only [jsizeM] at h3 ⊢
    simp only [jdumpMembers, List.length_append, List.length_cons]
    omega
end

/-- `json.loads ∘ json.dumps` is the identity on well-formed values. -/
theorem jsonLoads_jdump {v : JVal} (h : WFj v = true) :
    jsonLoads (jdump v) = some v := by
  unfold jsonLoads
  have hskip : skipWs (jdump v) = jdump v := by
    have hs := skipWs_jdump v []
    simpa using hs
  rw [hskip]
  have hp := parseVal_jdump v (2 * (jdump v).length + 2) [] h
    (by have := jsizeV_le v; omega) nextSafe_nil
  rw [List.append_nil] at hp
  dsimp only
  rw [hp]
  rfl

/-! ## Chunking invariance of the buffer loop -/

theorem splitNN_append (t : PyStr) : ∀ {s e rest : PyStr},
    splitNN s = some (e, rest) → splitNN (s ++ t) = some (e, rest ++ t) := by
  intro s
  induction s with
  | nil => intro e rest h; simp [splitNN] at h
  | cons c r ih =>
    intro e rest h
    simp only [splitNN] at h
    split at h
    · rename_i hcr
      obtain ⟨hc, hh⟩ := hcr
      cases r with
      | nil => simp at hh
      | cons c₂ r₂ =>
        simp only [List.head?_cons, Option.some.injEq] at hh
        simp only [Option.some.injEq, Prod.mk.injEq, List.tail_cons] at h
        subst hc hh
        simp only [List.cons_append, splitNN, List.append_eq, List.head?_cons,
          List.tail_cons]
        rw [if_pos (by simp)]
        simp [← h.1, ← h.2]
    · rename_i hcr
      cases he : splitNN r with
      | none => rw [he] at h; simp at h
      | some p =>
        obtain ⟨e₀, r₀⟩ := p
        rw [he] at h
        simp only [Option.map_some', Option.some.injEq, Prod.mk.injEq] at h
        have hr := ih he
        have hneg : ¬(c = 10 ∧ (r ++ t).head? = some 10) := by
          intro hcon
          apply hcr
          refine ⟨hcon.1, ?_⟩
          cases r with
          | nil => simp [splitNN] at he
          | cons a b => simpa using hcon.2
        simp only [List.cons_append, splitNN, List.append_eq]
        rw [if_neg hneg, hr]
        simp only [Option.map_some', Option.some.injEq, Prod.mk.injEq]
        exact ⟨h.1, by rw [← h.2]⟩

theorem extract_append : ∀ (n : Nat) (s : PyStr), s.length ≤ n → ∀ u : PyStr,
    extract (s ++ u) =
      ((extract s).1 ++ (extract ((extract s).2 ++ u)).1,
       (extract ((extract s).2 ++ u)).2) := by
  intro n
  induction n with
  | zero =>
    intro s hs u
    have hnil : s = [] := List.eq_nil_of_length_eq_zero (by omega)
    subst hnil
    have h0 : extract ([] : PyStr) = ([], []) := rfl
    rw [h0]
    simp
  | succ m ih =>
    intro s hs u
    cases hsp : splitNN s with
    | none =>
      have h1 : extract s = ([], s) := by rw [extract_eq, hsp]
      rw [h1]
      simp
    | some p =>
      obtain ⟨e, rest⟩ := p
      have hlen := splitNN_length hsp
      have h1 : extract s = (e :: (extract rest).1, (extract rest).2) := by
        rw [extract_eq, hsp]
      have h2 : splitNN (s ++ u) = some (e, rest ++ u) := splitNN_append u hsp
      have h3 : extract (s ++ u) =
          (e :: (extract (rest ++ u)).1, (extract (rest ++ u)).2) := by
        rw [extract_eq, h2]
      rw [h1, h3, ih rest (by omega) u]
      simp

/-- The residue left by the `while` loop never contains the delimiter:
the loop only stops when `"\n\n" in buffer` is false. -/
theorem extract_residue : ∀ (n : Nat) (s : PyStr), s.length ≤ n →
    splitNN (extract s).2 = none := by
  intro n
  induction n with
  | zero =>
    intro s hs
    have hnil : s = [] := List.eq_nil_of_length_eq_zero (by omega)
    subst hnil
    rfl
  | succ m ih =>
    intro s hs
    cases hsp : splitNN s with
    | none =>
      have h1 : extract s = ([], s) := by rw [extract_eq, hsp]
      rw [h1]
      exact hsp
    | some p =>
      obtain ⟨e, rest⟩ := p
      have hlen := splitNN_length hsp
      have h1 : extract s = (e :: (extract rest).1, (extract rest).2) := by
        rw [extract_eq, hsp]
      rw [h1]
      exact ih rest (by omega)

theorem foldl_feedBuf : ∀ (parts : List PyStr) (es : List PyStr) (b : PyStr),
    splitNN b = none →
    parts.foldl feedBuf (es, b) =
      (es ++ (extract (b ++ parts.flatten)).1,
       (extract (b ++ parts.flatten)).2) := by
  intro parts
  induction parts with
  | nil =>
    intro es b hb
    have h1 : extract b = ([], b) := by rw [extract_eq, hb]
    simp [h1]
  | cons p ps ih =>
    intro es b hb
    simp only [List.foldl_cons, List.flatten_cons]
    have hres : splitNN (extract (b ++ p)).2 = none :=
      extract_residue (b ++ p).length (b ++ p) le_rfl
    rw [show feedBuf (es, b) p =
        (es ++ (extract (b ++ p)).1, (extract (b ++ p)).2) from rfl]
    rw [ih _ _ hres]
    have happ := extract_append (b ++ p).length (b ++ p) le_rfl ps.flatten
    rw [show b ++ (p ++ ps.flatten) = (b ++ p) ++ ps.flatten by simp, happ]
    simp

/-- Accumulating the transport chunks through the buffer is the same as
extracting from their concatenation: the buffer loop is chunking-invariant. -/
theorem extractAll_flatten (parts : List PyStr) :
    extractAll parts = extract parts.flatten := by
  unfold extractAll
  rw [foldl_feedBuf parts [] [] rfl]
  simp

/-- When every extracted chunk is processed without an escaping
exception, the pushed events are the concatenation, in extraction order,
of the per-chunk event lists. -/
theorem runEvents_ok (last : JVal) : ∀ cs : List PyStr,
    (∀ s ∈ cs, ∃ evs, processEvent s last = Except.ok evs) →
    runEvents last cs =
      ((cs.map (fun s => (processEvent s last).toOption.getD [])).flatten,
       false) := by
  intro cs
  induction cs with
  | nil => intro _; rfl
  | cons c rest ih =>
    intro h
    obtain ⟨evs, hc⟩ := h c (by simp)
    simp only [runEvents, hc]
    rw [ih (fun s hs => h s (by simp [hs]))]
    simp [hc, Except.toOption]

/-! ## Character-set facts about `json.dumps` output -/

theorem hexDigit_bounds {m : Nat} (h : m < 16) :
    48 ≤ hexDigit m ∧ hexDigit m ≤ 102 := by
  unfold hexDigit
  split <;> omega

theorem hex4_ascii (n : Nat) : ∀ x ∈ hex4 n, 32 ≤ x ∧ x ≤ 126 := by
  intro x hx
  unfold hex4 at hx
  simp only [List.mem_cons, List.not_mem_nil, or_false] at hx
  rcases hx with h | h | h | h <;> subst h
  · have hb := hexDigit_bounds (m := n / 4096 % 16) (by omega); omega
  · have hb := hexDigit_bounds (m := n / 256 % 16) (by omega); omega
  · have hb := hexDigit_bounds (m := n / 16 % 16) (by omega); omega
  · have hb := hexDigit_bounds (m := n % 16) (by omega); omega

theorem escapeChar_ascii (c : Nat) : ∀ x ∈ escapeChar c, 32 ≤ x ∧ x ≤ 126 := by
  intro x hx
  unfold escapeChar at hx
  split_ifs at hx with h1 h2 h3 h4 h5 h6 h7 h8 h9
  · simp only [List.mem_cons, List.not_mem_nil, or_false] at hx; omega
  · simp only [List.mem_cons, List.not_mem_nil, or_false] at hx; omega
  · simp only [List.mem_cons, List.not_mem_nil, or_false] at hx; omega
  · simp only [List.mem_cons, List.not_mem_nil, or_false] at hx; omega
  · simp only [List.mem_cons, List.not_mem_nil, or_false] at hx; omega
  · simp only [List.mem_cons, List.not_mem_nil, or_false] at hx; omega
  · simp only [List.mem_cons, List.not_mem_nil, or_false] at hx; omega
  · simp only [List.mem_cons, List.not_mem_nil, or_false] at hx; omega
  · simp only [List.mem_cons] at hx
    rcases hx with h | h | h
    · omega
    · omega
    · exact hex4_ascii c x h
  · simp only [List.cons_append, List.mem_cons, List.mem_append] at hx
    rcases hx with h | h | h
    · omega
    · omega
    · rcases h with h | h | h | h
      · exact hex4_ascii _ x h
      · omega
      · omega
      · exact hex4_ascii _ x h

theorem escStr_ascii (s : PyStr) : ∀ x ∈ escStr s, 32 ≤ x ∧ x ≤ 126 := by
  intro x hx
  unfold escStr at hx
  simp only [List.mem_flatMap] at hx
  obtain ⟨c, _, hc⟩ := hx
  exact escapeChar_ascii c x hc

theorem natToDec_ascii (n : Nat) : ∀ x ∈ natToDec n, 32 ≤ x ∧ x ≤ 126 := by
  intro x hx
  have hd := natToDec_all_digits n x hx
  simp only [isDigit, decide_eq_true_eq] at hd
  omega

theorem intToDec_ascii (n : Int) : ∀ x ∈ intToDec n, 32 ≤ x ∧ x ≤ 126 := by
  intro x hx
  unfold intToDec at hx
  split at hx
  · simp only [List.mem_cons] at hx
    rcases hx with h | h
    · omega
    · exact natToDec_ascii _ x h
  · exact natToDec_ascii _ x hx

mutual
/-- With `ensure_ascii=True`, every character `json.dumps` emits is
printable ASCII. -/
theorem jdump_ascii : ∀ v : JVal, ∀ x ∈ jdump v, 32 ≤ x ∧ x ≤ 126
  | .null => by decide
  | .bool true => by decide
  | .bool false => by decide
  | .int n => intToDec_ascii n
  | .str s => by
    intro x hx
    have hx2 : x ∈ 34 :: escStr s ++ [34] := hx
    simp only [List.mem_cons, List.mem_append, List.not_mem_nil, or_false] at hx2
    rcases hx2 with (h | h) | h
    · omega
    · exact escStr_ascii s x h
    · omega
  | .arr xs => by
    intro x hx
    have hx2 : x ∈ 91 :: jdumpItems xs ++ [93] := hx
    simp only [List.mem_cons, List.mem_append, List.not_mem_nil, or_false] at hx2
    rcases hx2 with (h | h) | h
    · omega
    · exact jdumpItems_ascii xs x h
    · omega
  | .obj kvs => by
    intro x hx
    have hx2 : x ∈ 123 :: jdumpMembers kvs ++ [125] := hx
    simp only [List.mem_cons, List.mem_append, List.not_mem_nil, or_false] at hx2
    rcases hx2 with (h | h) | h
    · omega
    · exact jdumpMembers_ascii kvs x h
    · omega

theorem jdumpItems_ascii : ∀ xs : List JVal, ∀ x ∈ jdumpItems xs, 32 ≤ x ∧ x ≤ 126
  | [] => by intro x hx; simp [jdumpItems] at hx
  | [v] => by
    intro x hx
    exact jdump_ascii v x hx
  | v :: w :: rest => by
    intro x hx
    have hx2 : x ∈ jdump v ++ 44 :: 32 :: jdumpItems (w :: rest) := hx
    simp only [List.mem_append, List.mem_cons] at hx2
    rcases hx2 with h | h | h | h
    · exact jdump_ascii v x h
    · omega
    · omega
    · exact jdumpItems_ascii (w :: rest) x h

theorem jdumpMembers_ascii : ∀ kvs : List (PyStr × JVal),
    ∀ x ∈ jdumpMembers kvs, 32 ≤ x ∧ x ≤ 126
  | [] => by intro x hx; simp [jdumpMembers] at hx
  | [(k, v)] => by
    intro x hx
    have hx2 : x ∈ 34 :: escStr k ++ [34] ++ 58 :: 32 :: jdump v := hx
    simp only [List.mem_cons, List.mem_append, List.not_mem_nil, or_false] at hx2
    rcases hx2 with ((h | h) | h) | h | h | h
    all_goals first
      | omega
      | exact escStr_ascii k x (by assumption)
      | exact jdump_ascii v x (by assumption)
  | (k, v) :: m :: rest => by
    intro x hx
    have hx2 : x ∈ 34 :: escStr k ++ [34] ++ 58 :: 32 :: jdump v ++
        44 :: 32 :: jdumpMembers (m :: rest) := hx
    simp only [List.mem_cons, List.mem_append, List.not_mem_nil, or_false] at hx2
    rcases hx2 with (((h | h) | h) | h | h | h) | h | h | h
    all_goals first
      | omega
      | exact escStr_ascii k x (by assumption)
      | exact jdump_ascii v x (by assumption)
      | exact jdumpMembers_ascii (m :: rest) x (by assumption)
end

/-- A dump never contains a raw newline. -/
theorem jdump_no_nl (v : JVal) : 10 ∉ jdump v := by
  intro h
  have hb := jdump_ascii v 10 h
  omega

/-! ## `str.strip`, `str.split` and `startswith` facts -/

theorem dropWhile_head_not {p : Nat → Bool} {l : PyStr}
    (h : ∀ c, l.head? = some c → ¬p c) : l.dropWhile p = l := by
  cases l with
  | nil => rfl
  | cons c r => simp [List.dropWhile_cons, h c rfl]

theorem pyStrip_eq_self {s : PyStr}
    (h1 : ∀ c, s.head? = some c → ¬pyIsSpace c)
    (h2 : ∀ c, s.getLast? = some c → ¬pyIsSpace c) : pyStrip s = s := by
  unfold pyStrip
  rw [dropWhile_head_not h1,
    dropWhile_head_not (fun c hc => h2 c (by rwa [List.head?_reverse] at hc)),
    List.reverse_reverse]

theorem pyStrip_cons_ws {c : Nat} (h : pyIsSpace c) (s : PyStr) :
    pyStrip (c :: s) = pyStrip s := by
  unfold pyStrip
  rw [List.dropWhile_cons_of_pos h]

theorem pyStrip_append_nlnl {a : PyStr} (hne : a ≠ [])
    (h1 : ∀ c, a.head? = some c → ¬pyIsSpace c)
    (h2 : ∀ c, a.getLast? = some c → ¬pyIsSpace c) :
    pyStrip (a ++ [10, 10]) = a := by
  unfold pyStrip
  have hd : (a ++ [10, 10]).dropWhile pyIsSpace = a ++ [10, 10] := by
    apply dropWhile_head_not
    intro c hc
    cases a with
    | nil => exact absurd rfl hne
    | cons x r =>
      simp only [List.cons_append, List.head?_cons, Option.some.injEq] at hc
      rw [← hc]
      exact h1 x rfl
  rw [hd, List.reverse_append]
  show ((10 :: 10 :: a.reverse).dropWhile pyIsSpace).reverse = a
  rw [List.dropWhile_cons_of_pos (by decide), List.dropWhile_cons_of_pos (by decide),
    dropWhile_head_not (fun c hc => h2 c (by rwa [List.head?_reverse] at hc)),
    List.reverse_reverse]

theorem splitNN_none_no_nl {s : PyStr} (h : 10 ∉ s) : splitNN s = none := by
  induction s with
  | nil => rfl
  | cons c r ih =>
    simp only [List.mem_cons, not_or] at h
    simp only [splitNN]
    rw [if_neg (by intro hc; exact h.1 hc.1.symm), ih h.2]
    rfl

theorem splitNN_none_mid {b : PyStr} : ∀ a : PyStr, 10 ∉ a → 10 ∉ b →
    b.head? ≠ some 10 → splitNN (a ++ 10 :: b) = none := by
  intro a
  induction a with
  | nil =>
    intro _ hb hbh
    simp only [List.nil_append, splitNN]
    rw [if_neg (by intro hc; exact hbh hc.2), splitNN_none_no_nl hb]
    rfl
  | cons c r ih =>
    intro ha hb hbh
    simp only [List.mem_cons, not_or] at ha
    simp only [List.cons_append, splitNN, List.append_eq]
    rw [if_neg (by intro hc; exact ha.1 hc.1.symm), ih ha.2 hb hbh]
    rfl

theorem splitNl_no_nl {s : PyStr} (h : 10 ∉ s) : splitNl s = [s] := by
  induction s with
  | nil => rfl
  | cons c r ih =>
    simp only [List.mem_cons, not_or] at h
    simp only [splitNl]
    rw [if_neg (fun hc => h.1 hc.symm), ih h.2]

theorem splitNl_append {b : PyStr} : ∀ a : PyStr, 10 ∉ a →
    splitNl (a ++ 10 :: b) = a :: splitNl b := by
  intro a
  induction a with
  | nil => intro _; simp [splitNl]
  | cons c r ih =>
    intro ha
    simp only [List.mem_cons, not_or] at ha
    simp only [List.cons_append, splitNl, List.append_eq]
    rw [if_neg (fun hc => ha.1 hc.symm), ih ha.2]

theorem isPrefixOf_append_self (l t : PyStr) : l.isPrefixOf (l ++ t) = true := by
  rw [List.isPrefixOf_iff_prefix]
  exact List.prefix_append l t

theorem isPrefixOf_head_ne {a b : Nat} (h : a ≠ b) (as bs : PyStr) :
    (a :: as).isPrefixOf (b :: bs) = false := by
  simp [List.isPrefixOf, h]

/-- A dump starts with a non-whitespace character (Python sense). -/
theorem jdump_head_strip (v : JVal) :
    ∃ c r, jdump v = c :: r ∧ ¬pyIsSpace c := by
  cases v with
  | null => exact ⟨110, _, rfl, by decide⟩
  | bool b =>
    cases b with
    | true => exact ⟨116, _, rfl, by decide⟩
    | false => exact ⟨102, _, rfl, by decide⟩
  | int n =>
    show ∃ c r, intToDec n = c :: r ∧ _
    unfold intToDec
    split
    · exact ⟨45, _, rfl, by decide⟩
    · cases heq : natToDec n.natAbs with
      | nil => exact absurd heq (natToDec_ne_nil _)
      | cons c r =>
        have hd : isDigit c := natToDec_all_digits _ c (by rw [heq]; simp)
        simp only [isDigit, decide_eq_true_eq] at hd
        refine ⟨c, r, rfl, ?_⟩
        simp only [pyIsSpace, decide_eq_true_eq]
        push_neg
        omega
  | str s => exact ⟨34, _, rfl, by decide⟩
  | arr xs => exact ⟨91, _, rfl, by decide⟩
  | obj kvs => exact ⟨123, _, rfl, by decide⟩

/-- A dump ends with a non-whitespace character (Python sense). -/
theorem jdump_last_strip (v : JVal) :
    ∃ c, (jdump v).getLast? = some c ∧ ¬pyIsSpace c := by
  cases v with
  | null => exact ⟨108, by decide, by decide⟩
  | bool b =>
    cases b with
    | true => exact ⟨101, by decide, by decide⟩
    | false => exact ⟨101, by decide, by decide⟩
  | int n =>
    show ∃ c, (intToDec n).getLast? = some c ∧ _
    cases heq : (natToDec n.natAbs).getLast? with
    | none => exact absurd (List.getLast?_eq_none_iff.mp heq) (natToDec_ne_nil _)
    | some c =>
      have hmem := List.mem_of_mem_getLast? heq
      have hd := natToDec_all_digits _ c hmem
      simp only [isDigit, decide_eq_true_eq] at hd
      have hns : ¬pyIsSpace c = true := by
        simp only [pyIsSpace, decide_eq_true_eq]
        push_neg
        omega
      unfold intToDec
      split
      · refine ⟨c, ?_, hns⟩
        rw [show (45 :: natToDec n.natAbs) = [45] ++ natToDec n.natAbs from rfl,
          List.getLast?_append_of_ne_nil _ (natToDec_ne_nil _)]
        exact heq
      · exact ⟨c, heq, hns⟩
  | str s =>
    refine ⟨34, ?_, by decide⟩
    show (34 :: escStr s ++ [34]).getLast? = some 34
    rw [show 34 :: escStr s ++ [34] = (34 :: escStr s) ++ [34] from rfl]
    exact List.getLast?_concat _
  | arr xs =>
    refine ⟨93, ?_, by decide⟩
    show (91 :: jdumpItems xs ++ [93]).getLast? = some 93
    rw [show 91 :: jdumpItems xs ++ [93] = (91 :: jdumpItems xs) ++ [93] from rfl]
    exact List.getLast?_concat _
  | obj kvs =>
    refine ⟨125, ?_, by decide⟩
    show (123 :: jdumpMembers kvs ++ [125]).getLast? = some 125
    rw [show 123 :: jdumpMembers kvs ++ [125] = (123 :: jdumpMembers kvs) ++ [125] from rfl]
    exact List.getLast?_concat _

/-- A dump is its own Python `strip()`. -/
theorem pyStrip_jdump (v : JVal) : pyStrip (jdump v) = jdump v := by
  obtain ⟨c, r, hcr, hc⟩ := jdump_head_strip v
  obtain ⟨d, hd, hds⟩ := jdump_last_strip v
  apply pyStrip_eq_self
  · intro x hx
    rw [hcr] at hx
    simp only [List.head?_cons, Option.some.injEq] at hx
    rw [← hx]
    exact hc
  · intro x hx
    rw [hd] at hx
    injection hx with hx
    rw [← hx]
    exact hds

/-- `parseVal` rejects an input starting with `e` (code point 101). -/
theorem parseVal_e_none (fuel : Nat) (r : PyStr) : parseVal fuel (101 :: r) = none := by
  cases fuel with
  | zero => rfl
  | succ f =>
    simp only [parseVal]
    norm_num [isDigit]

/-- `json.loads` fails on any input starting with `e` (code point 101). -/
theorem jsonLoads_e_none (w : PyStr) : jsonLoads (101 :: w) = none := by
  unfold jsonLoads
  have hskip : skipWs (101 :: w) = 101 :: w :=
    skipWs_no_ws (by
      intro c hc
      simp only [List.head?_cons, Option.some.injEq] at hc
      rw [← hc]
      decide)
  simp only [hskip]
  rw [parseVal_e_none]

/-! ## Parsing the wire format produced by `StreamEvent.to_sse` -/

theorem printable_not_space {c : Nat} (h1 : 32 < c) (h2 : c ≤ 126) :
    ¬pyIsSpace c = true := by
  simp only [pyIsSpace, decide_eq_true_eq]
  omega

theorem pyStrip_eq_self_printable {E : PyStr}
    (h : ∀ c ∈ E, 32 < c ∧ c ≤ 126) : pyStrip E = E :=
  pyStrip_eq_self
    (fun c hc => printable_not_space (h c (List.mem_of_mem_head? hc)).1
      (h c (List.mem_of_mem_head? hc)).2)
    (fun c hc => printable_not_space (h c (List.mem_of_mem_getLast? hc)).1
      (h c (List.mem_of_mem_getLast? hc)).2)

/-- The line loop on an `event: <kind>` line records the kind. -/
theorem procLine_event_line (st : Option PyStr × Option JVal) (E : PyStr)
    (hE1 : E ≠ []) (hE2 : ∀ c ∈ E, 32 < c ∧ c ≤ 126) :
    procLine st ([101, 118, 101, 110, 116, 58, 32] ++ E) = (some E, st.2) := by
  have hstrip : pyStrip ([101, 118, 101, 110, 116, 58, 32] ++ E) =
      [101, 118, 101, 110, 116, 58, 32] ++ E := by
    apply pyStrip_eq_self
    · intro c hc
      simp only [List.cons_append, List.head?_cons, Option.some.injEq] at hc
      rw [← hc]; decide
    · intro c hc
      rw [List.getLast?_append_of_ne_nil _ hE1] at hc
      have hm := List.mem_of_mem_getLast? hc
      exact printable_not_space (hE2 c hm).1 (hE2 c hm).2
  simp only [procLine]
  rw [hstrip,
    show ([101, 118, 101, 110, 116, 58, 32] ++ E : PyStr) =
      [101, 118, 101, 110, 116, 58] ++ (32 :: E) from rfl,
    show pyOfString "event:" = [101, 118, 101, 110, 116, 58] from by decide,
    isPrefixOf_append_self, if_pos rfl,
    show (([101, 118, 101, 110, 116, 58] ++ (32 :: E) : PyStr)).drop 6 = 32 :: E from rfl,
    pyStrip_cons_ws (by decide), pyStrip_eq_self_printable hE2]

/-- The line loop on a `data: <json.dumps payload>` line records the
decoded payload. -/
theorem procLine_data_jdump (st : Option PyStr × Option JVal) (d : JVal)
    (hwf : WFj d = true) :
    procLine st ([100, 97, 116, 97, 58, 32] ++ jdump d) = (st.1, some d) := by
  have hdne : jdump d ≠ [] := by
    obtain ⟨c0, r0, hcr, _⟩ := jdump_head_strip d
    rw [hcr]; simp
  have hstrip : pyStrip ([100, 97, 116, 97, 58, 32] ++ jdump d) =
      [100, 97, 116, 97, 58, 32] ++ jdump d := by
    apply pyStrip_eq_self
    · intro c hc
      simp only [List.cons_append, List.head?_cons, Option.some.injEq] at hc
      rw [← hc]; decide
    · intro c hc
      rw [List.getLast?_append_of_ne_nil _ hdne] at hc
      obtain ⟨x, hx, hxs⟩ := jdump_last_strip d
      rw [hx] at hc
      injection hc with hc
      rw [← hc]; exact hxs
  simp only [procLine]
  rw [hstrip]
  rw [show ((pyOfString "event:").isPrefixOf ([100, 97, 116, 97, 58, 32] ++ jdump d)) =
      ((101 :: [118, 101, 110, 116, 58]).isPrefixOf
        (100 :: ([97, 116, 97, 58, 32] ++ jdump d))) from by rfl,
    isPrefixOf_head_ne (by decide), if_neg (by simp)]
  rw [show ([100, 97, 116, 97, 58, 32] ++ jdump d : PyStr) =
      [100, 97, 116, 97, 58] ++ (32 :: jdump d) from rfl,
    show pyOfString "data:" = [100, 97, 116, 97, 58] from by decide,
    isPrefixOf_append_self, if_pos rfl,
    show (([100, 97, 116, 97, 58] ++ (32 :: jdump d) : PyStr)).drop 5 = 32 :: jdump d from rfl,
    pyStrip_cons_ws (by decide), pyStrip_jdump, jsonLoads_jdump hwf]

/-- Parsing the exact wire format `event: <kind>\ndata: <dump>\n\n`
recovers the kind and the payload, for any printable non-empty kind and
any truthy well-formed payload. -/
theorem parseSSE_toSSE (E : PyStr) (d : JVal)
    (hE1 : E ≠ []) (hE2 : ∀ c ∈ E, 32 < c ∧ c ≤ 126)
    (hwf : WFj d = true) (htr : jtruthy d = true) :
    parseSSEvents (toSSE E d) = [⟨E, d⟩] := by
  have hdne : jdump d ≠ [] := by
    obtain ⟨c0, r0, hcr, _⟩ := jdump_head_strip d
    rw [hcr]; simp
  have hE10 : (10 : Nat) ∉ E := fun h => by have := hE2 10 h; omega
  have hsse : toSSE E d =
      (([101, 118, 101, 110, 116, 58, 32] ++ E) ++
        10 :: ([100, 97, 116, 97, 58, 32] ++ jdump d)) ++ [10, 10] := by
    show pyOfString "event: " ++ E ++ pyOfString "\ndata: " ++ jdump d ++
        pyOfString "\n\n" = _
    rw [show pyOfString "event: " = [101, 118, 101, 110, 116, 58, 32] from by decide,
      show pyOfString "\ndata: " = 10 :: [100, 97, 116, 97, 58, 32] from by decide,
      show pyOfString "\n\n" = [10, 10] from by decide]
    simp [List.append_assoc]
  have hhead : ∀ c, ((([101, 118, 101, 110, 116, 58, 32] ++ E) ++
      10 :: ([100, 97, 116, 97, 58, 32] ++ jdump d) : PyStr)).head? = some c →
      ¬pyIsSpace c := by
    intro c hc
    simp only [List.cons_append, List.head?_cons, Option.some.injEq] at hc
    rw [← hc]; decide
  have hlast : ∀ c, ((([101, 118, 101, 110, 116, 58, 32] ++ E) ++
      10 :: ([100, 97, 116, 97, 58, 32] ++ jdump d) : PyStr)).getLast? = some c →
      ¬pyIsSpace c := by
    intro c hc
    rw [List.getLast?_append_of_ne_nil _ (by simp)] at hc
    rw [show (10 :: ([100, 97, 116, 97, 58, 32] ++ jdump d) : PyStr) =
      [10, 100, 97, 116, 97, 58, 32] ++ jdump d from rfl] at hc
    rw [List.getLast?_append_of_ne_nil _ hdne] at hc
    obtain ⟨x, hx, hxs⟩ := jdump_last_strip d
    rw [hx] at hc
    injection hc with hc
    rw [← hc]; exact hxs
  have hstrip : pyStrip (toSSE E d) =
      ([101, 118, 101, 110, 116, 58, 32] ++ E) ++
        10 :: ([100, 97, 116, 97, 58, 32] ++ jdump d) := by
    rw [hsse]
    exact pyStrip_append_nlnl (by simp) hhead hlast
  have hload : jsonLoads ((([101, 118, 101, 110, 116, 58, 32] ++ E) ++
      10 :: ([100, 97, 116, 97, 58, 32] ++ jdump d) : PyStr)) = none := by
    rw [show ((([101, 118, 101, 110, 116, 58, 32] ++ E) ++
      10 :: ([100, 97, 116, 97, 58, 32] ++ jdump d) : PyStr)) =
      101 :: (([118, 101, 110, 116, 58, 32] ++ E) ++
        10 :: ([100, 97, 116, 97, 58, 32] ++ jdump d)) from rfl]
    exact jsonLoads_e_none _
  have hA10 : (10 : Nat) ∉ ([101, 118, 101, 110, 116, 58, 32] ++ E : PyStr) := by
    intro h
    rcases List.mem_append.mp h with h | h
    · exact absurd h (by decide)
    · exact hE10 h
  have hB10 : (10 : Nat) ∉ ([100, 97, 116, 97, 58, 32] ++ jdump d : PyStr) := by
    intro h
    rcases List.mem_append.mp h with h | h
    · exact absurd h (by decide)
    · exact jdump_no_nl d h
  have hnn : splitNN ((([101, 118, 101, 110, 116, 58, 32] ++ E) ++
      10 :: ([100, 97, 116, 97, 58, 32] ++ jdump d) : PyStr)) = none := by
    apply splitNN_none_mid _ hA10 hB10
    rw [show ([100, 97, 116, 97, 58, 32] ++ jdump d : PyStr) =
      100 :: ([97, 116, 97, 58, 32] ++ jdump d) from rfl]
    simp
  have hsplit : splitNN2p ((([101, 118, 101, 110, 116, 58, 32] ++ E) ++
      10 :: ([100, 97, 116, 97, 58, 32] ++ jdump d) : PyStr)) =
      [(([101, 118, 101, 110, 116, 58, 32] ++ E) ++
        10 :: ([100, 97, 116, 97, 58, 32] ++ jdump d) : PyStr)] := by
    rw [splitNN2p_eq, hnn]
  have hLstrip : pyStrip ((([101, 118, 101, 110, 116, 58, 32] ++ E) ++
      10 :: ([100, 97, 116, 97, 58, 32] ++ jdump d) : PyStr)) =
      (([101, 118, 101, 110, 116, 58, 32] ++ E) ++
        10 :: ([100, 97, 116, 97, 58, 32] ++ jdump d) : PyStr) :=
    pyStrip_eq_self hhead hlast
  have hlines : splitNl ((([101, 118, 101, 110, 116, 58, 32] ++ E) ++
      10 :: ([100, 97, 116, 97, 58, 32] ++ jdump d) : PyStr)) =
      [([101, 118, 101, 110, 116, 58, 32] ++ E : PyStr),
       ([100, 97, 116, 97, 58, 32] ++ jdump d : PyStr)] := by
    rw [splitNl_append _ hA10, splitNl_no_nl hB10]
  have hEne : E.isEmpty = false := by
    cases E with
    | nil => exact absurd rfl hE1
    | cons c r => rfl
  unfold parseSSEvents
  rw [hstrip]
  dsimp only
  rw [hload]
  dsimp only
  rw [hsplit]
  simp only [List.foldl_cons, List.foldl_nil]
  rw [if_neg (by
    rw [hLstrip]
    rw [show ((([101, 118, 101, 110, 116, 58, 32] ++ E) ++
      10 :: ([100, 97, 116, 97, 58, 32] ++ jdump d) : PyStr)) =
      101 :: (([118, 101, 110, 116, 58, 32] ++ E) ++
        10 :: ([100, 97, 116, 97, 58, 32] ++ jdump d)) from rfl]
    simp)]
  rw [hLstrip, hlines]
  simp only [lineFold, List.foldl_cons, List.foldl_nil]
  rw [procLine_event_line _ E hE1 hE2, procLine_data_jdump _ d hwf]
  dsimp only
  rw [hEne]
  simp [htr]

/-! ## Queue-shape helpers for the producer -/

theorem count_sentinel_map (l : List Ev) :
    (l.map QItem.ev).count QItem.sentinel = 0 := by
  rw [List.count_eq_zero]
  intro h
  rcases List.mem_map.mp h with ⟨e, _, he⟩
  exact QItem.noConfusion he

theorem getLast_cons_append (x : QItem) (l t : List QItem) (ht : t ≠ []) :
    (x :: (l ++ t)).getLast? = t.getLast? := by
  rw [← List.cons_append]
  exact List.getLast?_append_of_ne_nil _ ht

/-! ## The re-emission arms of the deployed asset `invoke_stream`
(lines 226–237): `LLM_RESPONSE` and `AGENT_END` with their truthiness
and dedup guards (`last_content` starts as `None` there). -/

/-- One step of the asset relay loop for the two message-bearing event
kinds: the yielded SSE strings and the updated `last_content`. -/
def assetMsgYields (etype : PyStr) (kvs : List (PyStr × JVal)) (last : Option JVal) :
    List PyStr × Option JVal :=
  if etype = pyOfString "LLM_RESPONSE" then
    let content := jget kvs (pyOfString "content") (.str [])
    if jtruthy content then
      ([pyOfString "event: message\ndata: " ++
          jdump (.obj [(pyOfString "content", content)]) ++ pyOfString "\n\n"],
       some content)
    else ([], last)
  else if etype = pyOfString "AGENT_END" then
    let output := jget kvs (pyOfString "output") (.str [])
    if jtruthy output &&
        (match last with | none => true | some l => !pyEq output l) then
      ([pyOfString "event: message\ndata: " ++
          jdump (.obj [(pyOfString "content", output)]) ++ pyOfString "\n\n"],
       last)
    else ([], last)
  else ([], last)

/-! ## The specification claims -/

/-- C4: feeding the buffer loop of `_process_bedrock_stream` any
in-order partition of a complete SSE text into non-empty fragments
yields the same events as feeding the text whole; and within one chunk
the events of a crash-free run are emitted in their left-to-right source
order (the concatenation, in extraction order, of the per-chunk event
lists). -/
theorem c4_chunking_invariance :
    (∀ (T : PyStr) (parts : List PyStr), parts.flatten = T →
       (∀ p ∈ parts, p ≠ []) → streamEvents parts = streamEvents [T]) ∧
    (∀ cs : List PyStr,
       (∀ s ∈ cs, ∃ evs, processEvent s initialLast = Except.ok evs) →
       (runEvents initialLast cs).1 =
         (cs.map (fun s => (processEvent s initialLast).toOption.getD [])).flatten) := by
  constructor
  · intro T parts hjoin hne
    have h1 : extractAll parts = extract T := by rw [extractAll_flatten, hjoin]
    have h2 : extractAll [T] = extract T := by
      rw [extractAll_flatten]
      simp only [List.flatten_cons, List.flatten_nil, List.append_nil]
    unfold streamEvents producerCore
    dsimp only
    rw [h1, h2]
  · intro cs h
    rw [runEvents_ok initialLast cs h]

/-- Witness for C4: a partition of one complete `ERROR` chunk that cuts
inside the data line and between the two delimiter newlines. -/
theorem c4_witness :
    streamEvents
      [pyOfString "event: ERROR\ndata: ",
       pyOfString "\x7b\"error\": \"x\"\x7d\n",
       pyOfString "\n"] =
      streamEvents [pyOfString "event: ERROR\ndata: \x7b\"error\": \"x\"\x7d\n\n"] :=
  c4_chunking_invariance.1 _ _ (by decide) (by decide)

/-- C2 counterexample: when the consumer's 120 s bounded wait elapses
with no event and no sentinel, `get_event` returns `None` and the
consumer emits the terminal `done` event and stops — the timeout IS
treated as completion, the stream is silently terminated, and no error
event is surfaced, contrary to the claim. -/
theorem c2_counterexample :
    consumerRun (pyOfString "s") [GetRes.timeout] =
      [startSSE (pyOfString "s"), doneSSE] := by rfl

/-- C2 (amended): `get_event` conflates the per-get timeout with the
sentinel — both return `None` — so a timeout ends the consumer loop
exactly like normal completion: one `done` event and no error event,
regardless of what would have followed on the queue. -/
theorem c2_timeout_is_completion (sid : PyStr) (gets : List GetRes) :
    consumerRun sid (GetRes.timeout :: gets) = [startSSE sid, doneSSE] := by rfl

/-- C3 counterexample: `done` is also emitted without any sentinel — a
timeout after one relayed event yields the same `done`-terminated
downstream stream the sentinel would, refuting "the done event is
emitted upon receiving the sentinel and only then". -/
theorem c3_counterexample :
    consumerRun (pyOfString "s")
      [GetRes.item (some ⟨pyOfString "message", JVal.str (pyOfString "hi")⟩),
       GetRes.timeout] =
      [startSSE (pyOfString "s"),
       sseOf ⟨pyOfString "message", JVal.str (pyOfString "hi")⟩, doneSSE] := by rfl

/-- C3 (amended): a producer push sequence `[e1, e2, sentinel]` makes
the consumer yield the outbound SSE forms of `e1` and `e2` in order,
then exactly one `done` event, after which the stream ends; the sentinel
is sufficient for `done` but not necessary (a timeout triggers it too). -/
theorem c3_sentinel_drains_in_order (sid : PyStr) (e₁ e₂ : Ev) :
    consumerRun sid
      [GetRes.item (some e₁), GetRes.item (some e₂), GetRes.item none] =
      [startSSE sid, sseOf e₁, sseOf e₂, doneSSE] := by rfl

/-- C1: the code does NOT suppress the echoed final content.  For the
upstream sequence [LLM_RESPONSE("X"), AGENT_END("X")] the producer
pushes TWO message events with content "X" (the claim requires exactly
one): `_process_event` returns the updated `last_content`, but both call
sites in `_process_bedrock_stream` (lines 190 and 198) discard that
return value, so every chunk is compared against the initial `""`.  The
distinct-content half of the claim does hold: [LLM_RESPONSE("X"),
AGENT_END("Y")] yields "X" then "Y". -/
theorem c1_echo_not_suppressed :
    streamEvents
      [pyOfString "event: LLM_RESPONSE\ndata: \x7b\"content\": \"X\"\x7d\n\nevent: AGENT_END\ndata: \x7b\"output\": \"X\"\x7d\n\n"] =
      [⟨pyOfString "message",
        .obj [(pyOfString "content", .str (pyOfString "X")), (pyOfString "partial", .bool true)]⟩,
       ⟨pyOfString "message",
        .obj [(pyOfString "content", .str (pyOfString "X")), (pyOfString "final", .bool true)]⟩] ∧
    streamEvents
      [pyOfString "event: LLM_RESPONSE\ndata: \x7b\"content\": \"X\"\x7d\n\nevent: AGENT_END\ndata: \x7b\"output\": \"Y\"\x7d\n\n"] =
      [⟨pyOfString "message",
        .obj [(pyOfString "content", .str (pyOfString "X")), (pyOfString "partial", .bool true)]⟩,
       ⟨pyOfString "message",
        .obj [(pyOfString "content", .str (pyOfString "Y")), (pyOfString "final", .bool true)]⟩] := by
  constructor
  · decide
  · decide

/-- C5 counterexample: the single space is a non-empty input with no
`"\n\n"` delimiter, yet the producer emits zero events (the residual
buffer is whitespace-only and `if buffer.strip():` drops it), not one
final-content event whose payload equals the input. -/
theorem c5_counterexample :
    pyOfString " " ≠ [] ∧ splitNN (pyOfString " ") = none ∧
    streamEvents [pyOfString " "] = [] := by decide

/-- C5 (amended): a delimiter-free input whose `strip()` is non-empty
and that does not start with `event:` or `data:` produces exactly one
final `message` event; its content is the JSON-decoded input when it
decodes as a string, `str(value)` for another decoded value, and the
stripped input otherwise (`residContent`), not necessarily the input
itself.  Whitespace-only inputs yield nothing, and `event:`/`data:`
-prefixed ones go through `_process_event` instead. -/
theorem c5_residual_fallback (T : PyStr)
    (hnn : splitNN T = none)
    (hws : (pyStrip T).isEmpty = false)
    (hev : (pyOfString "event:").isPrefixOf T = false)
    (hda : (pyOfString "data:").isPrefixOf T = false) :
    streamEvents [T] = [finalMsg (residContent T)] := by
  have h1 : extractAll [T] = ([], T) := by
    rw [extractAll_flatten]
    simp only [List.flatten_cons, List.flatten_nil, List.append_nil]
    rw [extract_eq, hnn]
  have h2 : residueEvents T initialLast = Except.ok [finalMsg (residContent T)] := by
    unfold residueEvents
    rw [hws, hev, hda]
    simp
  unfold streamEvents producerCore
  dsimp only
  rw [h1]
  simp [runEvents, h2]

/-- Witness for C5 at the plain-text input `hello`. -/
theorem c5_witness :
    streamEvents [pyOfString "hello"] =
      [finalMsg (residContent (pyOfString "hello"))] :=
  c5_residual_fallback _ (by decide) (by decide) (by decide) (by decide)

/-- C6 counterexample: take the raw text `T = json.dumps("event: e\ndata: 1")`
(itself a JSON string literal).  Parsing `json.dumps(T)` unwraps one
encoding level and then splits `T`, whose escaped `\n` are not real
newlines, yielding no events; parsing `T` unwraps to the inner SSE text
and yields one event.  The two parses differ, refuting the claim for
this `T`. -/
theorem c6_counterexample :
    parseSSEvents
      (jdump (JVal.str (jdump (JVal.str (pyOfString "event: e\ndata: 1"))))) ≠
      parseSSEvents (jdump (JVal.str (pyOfString "event: e\ndata: 1"))) := by decide

/-- C6 (amended): parsing `T` and parsing `json.dumps(T)` agree for
every stripped well-formed `T` that does not itself decode as a JSON
string — the parser attempts exactly one whole-input JSON decode,
substitutes a decoded string, and keeps the input on failure or on a
non-string decode.  (When `T` itself decodes as a string the single
unwrap lands on different texts on the two sides, as the
counterexample shows.) -/
theorem c6_double_encode_unwrap (T : PyStr)
    (hwf : WFj (JVal.str T) = true)
    (hstrip : pyStrip T = T)
    (hnostr : (match jsonLoads T with
               | some (JVal.str _) => true
               | _ => false) = false) :
    parseSSEvents (jdump (JVal.str T)) = parseSSEvents T := by
  unfold parseSSEvents
  rw [pyStrip_jdump, hstrip]
  dsimp only
  rw [jsonLoads_jdump hwf]
  dsimp only
  cases hl : jsonLoads T with
  | none => rfl
  | some v =>
    cases v with
    | str s => rw [hl] at hnostr; simp at hnostr
    | null => rfl
    | bool b => rfl
    | int n => rfl
    | arr xs => rfl
    | obj kvs => rfl

/-- Witness for C6 at the SSE text `event: x\ndata: 1`. -/
theorem c6_witness :
    parseSSEvents (jdump (JVal.str (pyOfString "event: x\ndata: 1"))) =
      parseSSEvents (pyOfString "event: x\ndata: 1") :=
  c6_double_encode_unwrap _ (by decide) (by decide) (by decide)

/-- C7: every producer run pushes, after the initial `agent_start`, only
event items followed by exactly one trailing sentinel — an exception
never escapes to the consumer, it becomes an `error` event on the same
queue; and whenever the transport raises `m`, an `error` event (`errEv m`,
or `errEv attrErrMsg` if an internal `AttributeError` fired first) is on
the queue before the stream ends. -/
theorem c7_errors_through_queue (sid : PyStr) (chunks : List PyStr)
    (exc : Option PyStr) :
    (producerRun sid chunks exc).getLast? = some QItem.sentinel ∧
    (producerRun sid chunks exc).count QItem.sentinel = 1 ∧
    (∀ m, exc = some m →
      QItem.ev (errEv m) ∈ producerRun sid chunks exc ∨
      QItem.ev (errEv attrErrMsg) ∈ producerRun sid chunks exc) := by
  unfold producerRun
  dsimp only
  split
  · refine ⟨?_, ?_, ?_⟩
    · rw [show [QItem.ev (errEv attrErrMsg), QItem.sentinel] =
          [QItem.ev (errEv attrErrMsg)] ++ [QItem.sentinel] from rfl,
        ← List.append_assoc, getLast_cons_append _ _ _ (by simp)]
      rfl
    · simp [List.count_cons, List.count_append, count_sentinel_map]
    · intro m hm
      right
      simp
  · cases exc with
    | some m =>
      dsimp only
      refine ⟨?_, ?_, ?_⟩
      · rw [show [QItem.ev (errEv m), QItem.sentinel] =
            [QItem.ev (errEv m)] ++ [QItem.sentinel] from rfl,
          ← List.append_assoc, getLast_cons_append _ _ _ (by simp)]
        rfl
      · simp [List.count_cons, List.count_append, count_sentinel_map]
      · intro m2 hm
        left
        injection hm with hm
        rw [← hm]
        simp
    | none =>
      dsimp only
      split
      · refine ⟨?_, ?_, ?_⟩
        · rw [getLast_cons_append _ _ _ (by simp)]
          rfl
        · simp [List.count_cons, List.count_append, count_sentinel_map]
        · intro m hm
          exact Option.noConfusion hm
      · refine ⟨?_, ?_, ?_⟩
        · rw [show [QItem.ev (errEv attrErrMsg), QItem.sentinel] =
              [QItem.ev (errEv attrErrMsg)] ++ [QItem.sentinel] from rfl,
            ← List.append_assoc, getLast_cons_append _ _ _ (by simp)]
          rfl
        · simp [List.count_cons, List.count_append, count_sentinel_map]
        · intro m hm
          exact Option.noConfusion hm

/-- Witness for C7: a transport failure on an empty chunk stream puts
its error event on the queue. -/
theorem c7_witness :
    QItem.ev (errEv (pyOfString "boom")) ∈
      producerRun (pyOfString "s") [] (some (pyOfString "boom")) ∨
    QItem.ev (errEv attrErrMsg) ∈
      producerRun (pyOfString "s") [] (some (pyOfString "boom")) :=
  (c7_errors_through_queue (pyOfString "s") [] (some (pyOfString "boom"))).2.2
    (pyOfString "boom") rfl

/-- C9 counterexample: the empty dict is a valid JSON-serializable
payload, but `parse(to_sse(agent_start, \x7b\x7d))` yields no event at
all — `if event_type and event_data:` drops the falsy decoded `\x7b\x7d`
— so the round trip does not reconstruct the event. -/
theorem c9_counterexample :
    parseSSEvents (toSSE StreamEventType.agent_start.toStr (JVal.obj [])) = [] := by
  decide

/-- C9 (amended): for every `StreamEventType` kind and every non-empty
well-formed dict payload, parsing the wire form reconstructs exactly the
original event: `parse_sse_events(to_sse(kind, payload)) =
[(kind, payload)]` (member order is preserved verbatim, so key-order
insensitivity is not even needed).  Falsy payloads — the empty dict —
are dropped by the parser's truthiness gate, hence the non-emptiness
condition. -/
theorem c9_wire_roundtrip (et : StreamEventType) (kvs : List (PyStr × JVal))
    (hwf : WFj (JVal.obj kvs) = true) (hne : kvs ≠ []) :
    parseSSEvents (toSSE et.toStr (JVal.obj kvs)) = [⟨et.toStr, JVal.obj kvs⟩] := by
  apply parseSSE_toSSE
  · cases et <;> decide
  · cases et <;> decide
  · exact hwf
  · cases kvs with
    | nil => exact absurd rfl hne
    | cons a l => rfl

/-- Witness for C9 at an `llm_token` event with payload
`\x7b"content": "hi"\x7d`. -/
theorem c9_witness :
    parseSSEvents (toSSE StreamEventType.llm_token.toStr
      (JVal.obj [(pyOfString "content", JVal.str (pyOfString "hi"))])) =
      [⟨StreamEventType.llm_token.toStr,
        JVal.obj [(pyOfString "content", JVal.str (pyOfString "hi"))]⟩] :=
  c9_wire_roundtrip _ _ (by decide) (by decide)

/-- C10: an `LLM_RESPONSE` whose `content` is absent or `""` and an
`AGENT_END` whose `output` is absent or `""` produce no downstream
message event, in the main client dispatcher (`_process_event`) and in
the deployed asset relay alike: the truthiness guards drop empty
content. -/
theorem c10_empty_content_dropped (kvs : List (PyStr × JVal)) (last : JVal)
    (lastA : Option JVal)
    (hc : jget kvs (pyOfString "content") (JVal.str []) = JVal.str [])
    (ho : jget kvs (pyOfString "output") (JVal.str []) = JVal.str []) :
    dispatchEvent (pyOfString "LLM_RESPONSE") (JVal.obj kvs) last = .ok [] ∧
    dispatchEvent (pyOfString "AGENT_END") (JVal.obj kvs) last = .ok [] ∧
    (assetMsgYields (pyOfString "LLM_RESPONSE") kvs lastA).1 = [] ∧
    (assetMsgYields (pyOfString "AGENT_END") kvs lastA).1 = [] := by
  refine ⟨?_, ?_, ?_, ?_⟩
  · unfold dispatchEvent
    rw [if_neg (by decide), if_neg (by decide), if_pos rfl]
    dsimp only
    rw [hc]
    simp [jtruthy]
  · unfold dispatchEvent
    rw [if_neg (by decide), if_neg (by decide), if_neg (by decide), if_pos rfl]
    dsimp only
    rw [ho]
    simp [jtruthy]
  · unfold assetMsgYields
    rw [if_pos rfl]
    dsimp only
    rw [hc]
    simp [jtruthy]
  · unfold assetMsgYields
    rw [if_neg (by decide), if_pos rfl]
    dsimp only
    rw [ho]
    simp [jtruthy]

/-- Witness for C10 at the empty payload dict. -/
theorem c10_witness :
    dispatchEvent (pyOfString "LLM_RESPONSE") (JVal.obj []) initialLast = .ok [] ∧
    dispatchEvent (pyOfString "AGENT_END") (JVal.obj []) initialLast = .ok [] ∧
    (assetMsgYields (pyOfString "LLM_RESPONSE") [] none).1 = [] ∧
    (assetMsgYields (pyOfString "AGENT_END") [] none).1 = [] :=
  c10_empty_content_dropped [] initialLast none (by decide) (by decide)
